import Mathlib

/-!
Verification of the RustNotes repository against its specification.

Part 1 embeds the expression evaluator of `src/calculator.rs` (tokenizer,
recursive-descent parser/evaluator, calculator state, REPL line dispatch).
Part 2 embeds the AVL tree of `src/balanced-binary-tree.rs`.

Modelling conventions for the calculator:
* Rust `f64` values are modelled as exact rationals (`ℚ`).  Every claim
  checked here exercises only arithmetic whose IEEE-754 binary64 evaluation
  is exact (small integers and the operators `+ - * / %` and `**` with
  integer exponents), so the rational model and the machine model agree on
  those inputs.
* The transcendental library calls (`sin`, `asin`, `ln`, ..., and the
  constants `pi`, `e`, ...) have no exact rational counterpart; they are
  modelled by an abstract interpretation record `MathFns`, and every
  theorem about the evaluator is proved for an arbitrary interpretation.
  The domain *checks* guarding those calls are embedded exactly as written
  in the source.
* The recursive-descent parser of the source terminates because each
  recursive call either consumes a token or moves down the grammar; the
  embedding makes this explicit with a fuel argument (structural
  recursion), supplied generously by `evaluate` so that fuel exhaustion is
  unreachable on the inputs considered.
* Strings are modelled on their character lists; the claims exercise only
  ASCII input, where Rust's byte-based `len`/`starts_with` and the
  character model coincide.
-/

namespace RustCalc

/-- Tokens of the calculator (calculator.rs lines 39-51).  `func` and
`const` model the Rust variants `Function` and `Constant`. -/
inductive Token where
  | number (n : ℚ)
  | operator (c : Char)
  | power
  | leftParen
  | rightParen
  | func (name : String)
  | memory (idx : Nat)
  | const (name : String)
  | lastResult
  | eof
deriving DecidableEq, Repr

/-- Calculator state (calculator.rs lines 53-56): ten `f64` memory slots and
the last-result register.  The slots are modelled as a total function from
the slot index; only indices 0-9 are ever produced by the tokenizer. -/
structure CalcState where
  memory : Nat → ℚ
  last_result : ℚ

/-- Embeds `Calculator::new` (calculator.rs lines 59-64). -/
def initCalc : CalcState := { memory := fun _ => 0, last_result := 0 }

/-- Abstract interpretation of the `f64` library functions and constants the
evaluator calls.  The evaluator's own logic never inspects these values, so
all theorems hold for every interpretation. `powf` is consulted only for
non-integer exponents (integer exponents are exact, see `ratPow`). -/
structure MathFns where
  sin : ℚ → ℚ
  cos : ℚ → ℚ
  tan : ℚ → ℚ
  asin : ℚ → ℚ
  acos : ℚ → ℚ
  atan : ℚ → ℚ
  ln : ℚ → ℚ
  log2 : ℚ → ℚ
  log10 : ℚ → ℚ
  exp : ℚ → ℚ
  sqrt : ℚ → ℚ
  powf : ℚ → ℚ → ℚ
  piV : ℚ
  eV : ℚ
  phiV : ℚ
  tauV : ℚ
  sqrt2V : ℚ
  sqrt3V : ℚ

/-- A concrete (arbitrary) interpretation, used to instantiate witnesses. -/
def fns0 : MathFns :=
  { sin := fun _ => 0, cos := fun _ => 0, tan := fun _ => 0
    asin := fun _ => 0, acos := fun _ => 0, atan := fun _ => 0
    ln := fun _ => 0, log2 := fun _ => 0, log10 := fun _ => 0
    exp := fun _ => 0, sqrt := fun _ => 0, powf := fun _ _ => 0
    piV := 0, eV := 0, phiV := 0, tauV := 0, sqrt2V := 0, sqrt3V := 0 }

/-- Embeds `left.powf(right)` (calculator.rs line 219).  For an integer exponent,
IEEE-754 `powf` is exact whenever the result is representable, which covers
every power the claims evaluate; the rational model computes that exact
value.  Non-integer exponents fall back to the abstract interpretation. -/
def ratPow (fns : MathFns) (a b : ℚ) : ℚ :=
  if b.den = 1 then a ^ b.num else fns.powf a b

/-- Rust `f64` `%` (calculator.rs line 204): remainder with truncated
quotient (result carries the sign of the dividend). -/
def ratRem (a b : ℚ) : ℚ :=
  a - b * ((if a / b < 0 then ⌈a / b⌉ else ⌊a / b⌋ : ℤ) : ℚ)

/-- Rust `f64::round` (calculator.rs line 328): round half away from zero. -/
def roundAway (x : ℚ) : ℚ :=
  if x < 0 then -((⌊-x + 1/2⌋ : ℤ) : ℚ) else ((⌊x + 1/2⌋ : ℤ) : ℚ)

/-- Rust `str::trim` (used at calculator.rs lines 69, 360, 372, 395, 456),
on the character list: strip whitespace from both ends. -/
def trimChars (cs : List Char) : List Char :=
  ((cs.dropWhile Char.isWhitespace).reverse.dropWhile Char.isWhitespace).reverse

/-- Embeds `char::to_digit(10)` (calculator.rs lines 131, 362, 374): the value of an
ASCII decimal digit. -/
def digitVal (c : Char) : Option Nat :=
  if c.isDigit then some (c.toNat - 48) else none

/-- Value of a digit run, used by `parseNumber`. -/
def digitsToNat (l : List Char) : Nat :=
  l.foldl (fun a c => 10 * a + (c.toNat - 48)) 0

/-- Embeds `number.parse::<f64>()` (calculator.rs line 85) restricted to the digit
or dot runs the tokenizer produces: at most one dot and at least one digit,
otherwise a parse failure (`none`).  The value is exact in `ℚ`. -/
def parseNumber (s : List Char) : Option ℚ :=
  let intPart := s.takeWhile (fun c => c ≠ '.')
  let rest := s.dropWhile (fun c => c ≠ '.')
  match rest with
  | [] =>
    if s.all Char.isDigit ∧ s ≠ [] then some ((digitsToNat s : Nat) : ℚ) else none
  | _ :: frac =>
    if intPart.all Char.isDigit ∧ frac.all Char.isDigit ∧
        (intPart ≠ [] ∨ frac ≠ []) then
      some (((digitsToNat intPart : Nat) : ℚ) +
        ((digitsToNat frac : Nat) : ℚ) / ((10 : ℚ) ^ frac.length))
    else none

/-- One step classification of an identifier word (calculator.rs lines
126-141): the six constant names, then `m` followed by one digit as a memory
slot, every other word as a function name. -/
def classifyWord (word : List Char) : Token :=
  let w : String := ⟨word⟩
  if w = "pi" ∨ w = "e" ∨ w = "phi" ∨ w = "tau" ∨ w = "sqrt2" ∨ w = "sqrt3" then
    .const w
  else
    match word with
    | [c1, c2] =>
      if c1 = 'm' then
        match digitVal c2 with
        | some d => if d ≤ 9 then .memory d else .func w
        | none => .func w
      else .func w
    | _ => .func w

/-- Character loop of `tokenize` (calculator.rs lines 67-148), with fuel
making the token-per-step termination argument explicit.  Digit runs take
every following digit or dot; identifier runs start with an ASCII letter
and extend over letters and digits; unknown characters are skipped. -/
def tokenizeAux (tokens : List Token) : Nat → List Char → Except String (List Token)
  | 0, _ => .error "tokenizer fuel exhausted"
  | _+1, [] => .ok tokens
  | fuel+1, c :: rest =>
    if c = ' ' ∨ c = '\t' then
      tokenizeAux tokens fuel rest
    else if c.isDigit ∨ c = '.' then
      let run := (c :: rest).takeWhile (fun ch => ch.isDigit ∨ ch = '.')
      let rest2 := (c :: rest).dropWhile (fun ch => ch.isDigit ∨ ch = '.')
      match parseNumber run with
      | none => .error "Invalid number"
      | some q => tokenizeAux (tokens ++ [.number q]) fuel rest2
    else if c = '+' ∨ c = '-' ∨ c = '/' ∨ c = '%' then
      tokenizeAux (tokens ++ [.operator c]) fuel rest
    else if c = '*' then
      match rest with
      | '*' :: rest2 => tokenizeAux (tokens ++ [.power]) fuel rest2
      | _ => tokenizeAux (tokens ++ [.operator '*']) fuel rest
    else if c = '(' then
      tokenizeAux (tokens ++ [.leftParen]) fuel rest
    else if c = ')' then
      tokenizeAux (tokens ++ [.rightParen]) fuel rest
    else if c = '_' then
      tokenizeAux (tokens ++ [.lastResult]) fuel rest
    else if c = '^' then
      tokenizeAux (tokens ++ [.power]) fuel rest
    else if c.isAlpha then
      let run := (c :: rest).takeWhile (fun ch => ch.isAlpha ∨ ch.isDigit)
      let rest2 := (c :: rest).dropWhile (fun ch => ch.isAlpha ∨ ch.isDigit)
      tokenizeAux (tokens ++ [classifyWord run]) fuel rest2
    else
      tokenizeAux tokens fuel rest
  termination_by structural fuel => fuel

/-- Embeds `Calculator::tokenize` (calculator.rs lines 67-152): tokenize the
trimmed input and append the end-of-input sentinel. -/
def tokenize (input : String) : Except String (List Token) :=
  let cs := trimChars input.toList
  (tokenizeAux [] (cs.length + 1) cs).map (fun ts => ts ++ [Token.eof])

/-- The known-function check of `parse_factor` (calculator.rs lines 266-270). -/
def is_known_function (name : String) : Bool :=
  name = "sin" ∨ name = "cos" ∨ name = "tan" ∨ name = "asin" ∨ name = "acos" ∨
  name = "atan" ∨ name = "ln" ∨ name = "log2" ∨ name = "log10" ∨ name = "exp" ∨
  name = "sqrt" ∨ name = "round" ∨ name = "floor" ∨ name = "ceil" ∨ name = "abs"

/-- Function application with domain checks, embedded verbatim from the
`match name.as_str()` of `parse_factor` (calculator.rs lines 286-333).  The
final case is the source's `unreachable!()`: it is guarded by
`is_known_function`. -/
def apply_known_function (fns : MathFns) (name : String) (arg : ℚ) :
    Except String ℚ :=
  match name with
  | "sin" => .ok (fns.sin arg)
  | "cos" => .ok (fns.cos arg)
  | "tan" => .ok (fns.tan arg)
  | "asin" =>
    if arg < -1 ∨ arg > 1 then .error "asin requires argument between -1 and 1"
    else .ok (fns.asin arg)
  | "acos" =>
    if arg < -1 ∨ arg > 1 then .error "acos requires argument between -1 and 1"
    else .ok (fns.acos arg)
  | "atan" => .ok (fns.atan arg)
  | "ln" =>
    if arg ≤ 0 then .error "ln requires positive argument" else .ok (fns.ln arg)
  | "log2" =>
    if arg ≤ 0 then .error "log2 requires positive argument" else .ok (fns.log2 arg)
  | "log10" =>
    if arg ≤ 0 then .error "log10 requires positive argument"
    else .ok (fns.log10 arg)
  | "exp" => .ok (fns.exp arg)
  | "sqrt" =>
    if arg < 0 then .error "sqrt requires non-negative argument"
    else .ok (fns.sqrt arg)
  | "round" => .ok (roundAway arg)
  | "floor" => .ok ((⌊arg⌋ : ℤ) : ℚ)
  | "ceil" => .ok ((⌈arg⌉ : ℤ) : ℚ)
  | "abs" => .ok |arg|
  | _ => .error "unreachable: guarded by is_known_function"

/-- Constant lookup of `parse_factor` (calculator.rs lines 339-350), under
the abstract interpretation of the irrational constants. -/
def constant_value (fns : MathFns) (name : String) : Except String ℚ :=
  match name with
  | "pi" => .ok fns.piV
  | "e" => .ok fns.eV
  | "phi" => .ok fns.phiV
  | "tau" => .ok fns.tauV
  | "sqrt2" => .ok fns.sqrt2V
  | "sqrt3" => .ok fns.sqrt3V
  | _ => .error ("Unknown constant: " ++ name)

mutual

/-- Embeds `parse_addition` (calculator.rs lines 158-178). -/
def parse_addition (fns : MathFns) (st : CalcState) (tokens : List Token) :
    Nat → Nat → Except String (ℚ × Nat)
  | 0, _ => .error "parser fuel exhausted"
  | fuel+1, pos => do
    let (left, p) ← parse_multiplication fns st tokens fuel pos
    addition_loop fns st tokens fuel left p
  termination_by structural fuel => fuel

/-- The `while` loop of `parse_addition` over `+` and `-`. -/
def addition_loop (fns : MathFns) (st : CalcState) (tokens : List Token) :
    Nat → ℚ → Nat → Except String (ℚ × Nat)
  | 0, _, _ => .error "parser fuel exhausted"
  | fuel+1, left, pos =>
    if pos < tokens.length then
      match tokens.getD pos .eof with
      | .operator '+' => do
        let (right, p) ← parse_multiplication fns st tokens fuel (pos + 1)
        addition_loop fns st tokens fuel (left + right) p
      | .operator '-' => do
        let (right, p) ← parse_multiplication fns st tokens fuel (pos + 1)
        addition_loop fns st tokens fuel (left - right) p
      | _ => .ok (left, pos)
    else .ok (left, pos)
  termination_by structural fuel => fuel

/-- Embeds `parse_multiplication` (calculator.rs lines 180-211). -/
def parse_multiplication (fns : MathFns) (st : CalcState) (tokens : List Token) :
    Nat → Nat → Except String (ℚ × Nat)
  | 0, _ => .error "parser fuel exhausted"
  | fuel+1, pos => do
    let (left, p) ← parse_power fns st tokens fuel pos
    multiplication_loop fns st tokens fuel left p
  termination_by structural fuel => fuel

/-- The `while` loop of `parse_multiplication` over `*`, `/` and `%`, with
the zero checks of the source (calculator.rs lines 193-204). -/
def multiplication_loop (fns : MathFns) (st : CalcState) (tokens : List Token) :
    Nat → ℚ → Nat → Except String (ℚ × Nat)
  | 0, _, _ => .error "parser fuel exhausted"
  | fuel+1, left, pos =>
    if pos < tokens.length then
      match tokens.getD pos .eof with
      | .operator '*' => do
        let (right, p) ← parse_power fns st tokens fuel (pos + 1)
        multiplication_loop fns st tokens fuel (left * right) p
      | .operator '/' => do
        let (right, p) ← parse_power fns st tokens fuel (pos + 1)
        if right = 0 then .error "Division by zero"
        else multiplication_loop fns st tokens fuel (left / right) p
      | .operator '%' => do
        let (right, p) ← parse_power fns st tokens fuel (pos + 1)
        if right = 0 then .error "Modulo by zero"
        else multiplication_loop fns st tokens fuel (ratRem left right) p
      | _ => .ok (left, pos)
    else .ok (left, pos)
  termination_by structural fuel => fuel

/-- Embeds `parse_power` (calculator.rs lines 213-223): the left operand comes from
`parse_unary`; a following power token recurses into `parse_power` itself on
the right (right associativity). -/
def parse_power (fns : MathFns) (st : CalcState) (tokens : List Token) :
    Nat → Nat → Except String (ℚ × Nat)
  | 0, _ => .error "parser fuel exhausted"
  | fuel+1, pos => do
    let (left, p) ← parse_unary fns st tokens fuel pos
    if p < tokens.length ∧ tokens.getD p .eof = .power then do
      let (right, p2) ← parse_power fns st tokens fuel (p + 1)
      .ok (ratPow fns left right, p2)
    else .ok (left, p)
  termination_by structural fuel => fuel

/-- Embeds `parse_unary` (calculator.rs lines 225-241): leading `-` or `+` applied
by recursion, otherwise fall through to `parse_factor`. -/
def parse_unary (fns : MathFns) (st : CalcState) (tokens : List Token) :
    Nat → Nat → Except String (ℚ × Nat)
  | 0, _ => .error "parser fuel exhausted"
  | fuel+1, pos =>
    if pos < tokens.length then
      match tokens.getD pos .eof with
      | .operator '-' => do
        let (v, p) ← parse_unary fns st tokens fuel (pos + 1)
        .ok (-v, p)
      | .operator '+' => parse_unary fns st tokens fuel (pos + 1)
      | _ => parse_factor fns st tokens fuel pos
    else parse_factor fns st tokens fuel pos
  termination_by structural fuel => fuel

/-- Embeds `parse_factor` (calculator.rs lines 243-357): number, parenthesised
sub-expression, function call (known-name check, required parentheses,
domain-checked application), memory recall, constant, or last result.  The
unknown-function message matches the source with the quoting around the
name omitted. -/
def parse_factor (fns : MathFns) (st : CalcState) (tokens : List Token) :
    Nat → Nat → Except String (ℚ × Nat)
  | 0, _ => .error "parser fuel exhausted"
  | fuel+1, pos =>
    if pos ≥ tokens.length then .error "Unexpected end of expression"
    else
      match tokens.getD pos .eof with
      | .number n => .ok (n, pos + 1)
      | .leftParen => do
        let (v, p) ← parse_addition fns st tokens fuel (pos + 1)
        if p ≥ tokens.length ∨ tokens.getD p .eof ≠ .rightParen then
          .error "Expected closing parenthesis"
        else .ok (v, p + 1)
      | .func name =>
        if ¬ is_known_function name then
          .error ("Unknown function " ++ name ++
            ". Available functions: sin, cos, tan, asin, acos, atan, ln, log2, log10, exp, sqrt, round, floor, ceil, abs")
        else if pos + 1 ≥ tokens.length ∨ tokens.getD (pos + 1) .eof ≠ .leftParen then
          .error ("Function " ++ name ++ " requires parentheses: " ++ name ++ "(...)")
        else do
          let (arg, p) ← parse_addition fns st tokens fuel (pos + 2)
          if p ≥ tokens.length ∨ tokens.getD p .eof ≠ .rightParen then
            .error "Expected closing parenthesis"
          else do
            let v ← apply_known_function fns name arg
            .ok (v, p + 1)
      | .memory idx => .ok (st.memory idx, pos + 1)
      | .const name => do
        let v ← constant_value fns name
        .ok (v, pos + 1)
      | .lastResult => .ok (st.last_result, pos + 1)
      | _ =>
        .error "Expected number, function, constant, memory location, _, or opening parenthesis"
  termination_by structural fuel => fuel

end

/-- Embeds `parse_expression` (calculator.rs lines 154-156). -/
def parse_expression (fns : MathFns) (st : CalcState) (tokens : List Token)
    (pos : Nat) : Except String (ℚ × Nat) :=
  parse_addition fns st tokens (tokens.length * 8 + 8) pos

/-- Embeds `is_memory_save` (calculator.rs lines 359-369): the trimmed input is
exactly `m` followed by one decimal digit. -/
def is_memory_save (input : String) : Option Nat :=
  match trimChars input.toList with
  | [c1, c2] =>
    if c1 = 'm' then
      match digitVal c2 with
      | some d => if d ≤ 9 then some d else none
      | none => none
    else none
  | _ => none

/-- Embeds `is_memory_clear` (calculator.rs lines 371-381): the trimmed input is
exactly `c` followed by one decimal digit. -/
def is_memory_clear (input : String) : Option Nat :=
  match trimChars input.toList with
  | [c1, c2] =>
    if c1 = 'c' then
      match digitVal c2 with
      | some d => if d ≤ 9 then some d else none
      | none => none
    else none
  | _ => none

/-- Embeds `Calculator::evaluate` (calculator.rs lines 423-440).  A whole-line
memory-save input stores the last result into the slot and returns it;
otherwise the line is tokenized and parsed, trailing tokens before the
end-of-input sentinel are rejected, and only a successful evaluation writes
the last-result register.  Returns the result and the updated state. -/
def evaluate (fns : MathFns) (st : CalcState) (input : String) :
    Except String ℚ × CalcState :=
  match is_memory_save input with
  | some idx =>
    (.ok st.last_result,
      { st with memory := Function.update st.memory idx st.last_result })
  | none =>
    match tokenize input with
    | .error e => (.error e, st)
    | .ok tokens =>
      match parse_expression fns st tokens 0 with
      | .error e => (.error e, st)
      | .ok (result, pos) =>
        if pos < tokens.length - 1 then
          (.error "Unexpected tokens at end of expression", st)
        else (.ok result, { st with last_result := result })

/-- REPL commands (calculator.rs lines 22-30). -/
inductive Command where
  | exit
  | help
  | clearResult
  | saveMemory (idx : Nat)
  | clearMemory (idx : Nat)
  | evaluateLine (s : String)
deriving DecidableEq, Repr

/-- Embeds `parse_command` together with `classify_input` (calculator.rs lines
384-407). -/
def parse_command (input : String) : Command :=
  let s : String := ⟨trimChars input.toList⟩
  if s = "q" ∨ s = "quit" ∨ s = "exit" then .exit
  else if s = "?" ∨ s = "help" then .help
  else if s = "clear" then .clearResult
  else
    match is_memory_save s with
    | some idx => .saveMemory idx
    | none =>
      match is_memory_clear s with
      | some idx => .clearMemory idx
      | none => .evaluateLine s

/-- State effect of one REPL loop iteration of `run` (calculator.rs lines
442-490), with the printing dropped: save stores the last result, clear
zeroes a slot, `clear` zeroes the last result, an expression line runs
`evaluate`. -/
def processLine (fns : MathFns) (st : CalcState) (input : String) : CalcState :=
  match parse_command input with
  | .exit => st
  | .help => st
  | .clearResult => { st with last_result := 0 }
  | .saveMemory idx =>
    { st with memory := Function.update st.memory idx st.last_result }
  | .clearMemory idx => { st with memory := Function.update st.memory idx 0 }
  | .evaluateLine s => (evaluate fns st s).2

end RustCalc

/-!
Part 2: the AVL tree of `src/balanced-binary-tree.rs`.

Modelling conventions:
* `Option<Box<Node<T>>>` becomes the inductive `Tree` with a `nil`
  constructor; the element type is instantiated at `ℤ` (any `Ord` type; the
  claims quantify over integer values).
* The `u8` height cache and `i8` balance factor are modelled as `Nat` and
  `ℤ`.  The source arithmetic overflows these small machine types only on
  trees beyond roughly `fib 130` nodes, which no physically executable
  operation sequence reaches.
* The `unwrap` calls in `rotate_right`/`rotate_left` are modelled twice:
  total functions (returning the tree unchanged in the impossible missing
  child case) used by the rest of the engine, and `Option`-valued variants
  (`rotate_rightO`, `rotate_leftO`, `rebalanceO`) in which `none` is a
  panic; the C10 theorem shows the two agree (no panic) under the AVL
  invariant, which every call site maintains.
-/

namespace RustAvl

/-- Embeds `Node`/`Option<Box<Node>>` (balanced-binary-tree.rs lines 7-13): value,
left and right subtrees, cached height. -/
inductive Tree where
  | nil
  | node (value : ℤ) (left : Tree) (right : Tree) (height : Nat)
deriving DecidableEq, Repr

/-- Embeds `node_height` (lines 26-28): the cached height, 0 for the empty tree. -/
def node_height : Tree → Nat
  | .nil => 0
  | .node _ _ _ h => h

/-- Embeds `update_height` (lines 30-32), as a constructor: rebuild the node with
its height cache recomputed from the children's caches. -/
def update_height (v : ℤ) (l r : Tree) : Tree :=
  .node v l r (1 + max (node_height l) (node_height r))

/-- Embeds `balance_factor` (lines 34-36): cached left height minus cached right
height.  The `nil` case returns 0, matching the `else { 0 }` defaults at
lines 62-64 and 75-77 where the source reads a possibly missing child. -/
def balance_factor : Tree → ℤ
  | .nil => 0
  | .node _ l r _ => (node_height l : ℤ) - (node_height r : ℤ)

/-- Embeds `rotate_right` (lines 38-45): promote the left child; its right subtree
becomes the pivot's left subtree; heights are recomputed bottom-up.  The
source `unwrap`s the left child; the missing-child case (unreachable under
the AVL invariant, see `rebalanceO_eq`) leaves the tree unchanged here and
is a panic in `rotate_rightO`. -/
def rotate_right : Tree → Tree
  | .node v (.node lv ll lr _) r _ => update_height lv ll (update_height v lr r)
  | t => t

/-- Embeds `rotate_left` (lines 47-54), mirror image of `rotate_right`. -/
def rotate_left : Tree → Tree
  | .node v l (.node rv rl rr _) _ => update_height rv (update_height v l rl) rr
  | t => t

/-- Embeds `rebalance` (lines 56-90): recompute the height, then select the
rotation by the balance factor and the relevant child's balance factor. -/
def rebalance : Tree → Tree
  | .nil => .nil
  | .node v l r _ =>
    if balance_factor (update_height v l r) > 1 then
      if balance_factor l < 0 then
        rotate_right (.node v (rotate_left l) r
          (node_height (update_height v l r)))
      else rotate_right (update_height v l r)
    else if balance_factor (update_height v l r) < -1 then
      if balance_factor r > 0 then
        rotate_left (.node v l (rotate_right r)
          (node_height (update_height v l r)))
      else rotate_left (update_height v l r)
    else update_height v l r

/-- Embeds `rotate_right` with the source's `unwrap` as a panic (`none`). -/
def rotate_rightO : Tree → Option Tree
  | .node v (.node lv ll lr _) r _ =>
    some (update_height lv ll (update_height v lr r))
  | _ => none

/-- Embeds `rotate_left` with the source's `unwrap` as a panic (`none`). -/
def rotate_leftO : Tree → Option Tree
  | .node v l (.node rv rl rr _) _ =>
    some (update_height rv (update_height v l rl) rr)
  | _ => none

/-- Embeds `rebalance` with every `unwrap` modelled as a possible panic: the
double-rotation branches unwrap the child being pre-rotated, and the final
rotations unwrap the pivoted child. -/
def rebalanceO : Tree → Option Tree
  | .nil => none
  | .node v l r _ =>
    if balance_factor (update_height v l r) > 1 then
      if balance_factor l < 0 then
        match rotate_leftO l with
        | none => none
        | some l2 => rotate_rightO (.node v l2 r (node_height (update_height v l r)))
      else rotate_rightO (update_height v l r)
    else if balance_factor (update_height v l r) < -1 then
      if balance_factor r > 0 then
        match rotate_rightO r with
        | none => none
        | some r2 => rotate_leftO (.node v l r2 (node_height (update_height v l r)))
      else rotate_leftO (update_height v l r)
    else some (update_height v l r)

/-- Embeds `insert_node` (lines 100-130): ordered descent, insert at the empty
slot, no duplicates, rebalance on the way out when an insert happened. -/
def insert_node : Tree → ℤ → Tree × Bool
  | .nil, value => (.node value .nil .nil 1, true)
  | .node v l r h, value =>
    if value < v then
      match insert_node l value with
      | (l2, ins) =>
        (if ins then rebalance (.node v l2 r h) else .node v l2 r h, ins)
    else if v < value then
      match insert_node r value with
      | (r2, ins) =>
        (if ins then rebalance (.node v l r2 h) else .node v l r2 h, ins)
    else (.node v l r h, false)

/-- Embeds `extract_min` (lines 182-192): remove and return the leftmost value,
rebalancing the extraction path.  The source takes a nonempty `Box<Node>`;
the `nil` equation is never consulted. -/
def extract_min : Tree → ℤ × Tree
  | .nil => (0, .nil)
  | .node v .nil r _ => (v, r)
  | .node v (.node lv ll lr lh) r h =>
    match extract_min (.node lv ll lr lh) with
    | (m, l2) => (m, rebalance (.node v l2 r h))

/-- Embeds `remove_node` (lines 141-180): ordered descent; at the match, splice for
zero or one child, and for two children replace the value by the in-order
successor extracted from the right subtree, then rebalance. -/
def remove_node : Tree → ℤ → Tree × Bool
  | .nil, _ => (.nil, false)
  | .node v l r h, value =>
    if value < v then
      match remove_node l value with
      | (l2, rem) =>
        (if rem then rebalance (.node v l2 r h) else .node v l2 r h, rem)
    else if v < value then
      match remove_node r value with
      | (r2, rem) =>
        (if rem then rebalance (.node v l r2 h) else .node v l r2 h, rem)
    else
      match l, r with
      | .nil, .nil => (.nil, true)
      | .node lv ll lr lh, .nil => (.node lv ll lr lh, true)
      | .nil, .node rv rl rr rh => (.node rv rl rr rh, true)
      | .node lv ll lr lh, .node rv rl rr rh =>
        match extract_min (.node rv rl rr rh) with
        | (succ, r2) =>
          (rebalance (update_height succ (.node lv ll lr lh) r2), true)

/-- Embeds `contains` (lines 194-204), the iterative ordered descent written as
recursion. -/
def containsT : Tree → ℤ → Bool
  | .nil, _ => false
  | .node v l r _, value =>
    if value < v then containsT l value
    else if v < value then containsT r value
    else true

/-- Embeds `check_balanced` (lines 243-258): recompute heights bottom-up, `none`
as soon as some recomputed balance factor exceeds 1 in magnitude. -/
def check_balanced : Tree → Option Nat
  | .nil => some 0
  | .node _ l r _ =>
    match check_balanced l with
    | none => none
    | some lh =>
      match check_balanced r with
      | none => none
      | some rh =>
        if ((lh : ℤ) - (rh : ℤ)).natAbs > 1 then none
        else some (1 + max lh rh)

/-- Embeds `AvlTree` (lines 15-19): root and size. -/
structure AvlTree where
  root : Tree
  size : Nat
deriving DecidableEq, Repr

/-- Embeds `AvlTree::new` (lines 22-24). -/
def AvlTree.new : AvlTree := { root := .nil, size := 0 }

/-- Embeds `insert` (lines 92-98). -/
def AvlTree.insert (t : AvlTree) (value : ℤ) : AvlTree :=
  match insert_node t.root value with
  | (new_root, inserted) =>
    { root := new_root, size := if inserted then t.size + 1 else t.size }

/-- Embeds `remove` (lines 132-139). -/
def AvlTree.remove (t : AvlTree) (value : ℤ) : AvlTree × Bool :=
  match remove_node t.root value with
  | (new_root, removed) =>
    ({ root := new_root, size := if removed then t.size - 1 else t.size },
      removed)

/-- Embeds `contains` (lines 194-204). -/
def AvlTree.contains (t : AvlTree) (value : ℤ) : Bool := containsT t.root value

/-- Embeds `height` (lines 214-216). -/
def AvlTree.height (t : AvlTree) : Nat := node_height t.root

/-- Embeds `len` (lines 206-208). -/
def AvlTree.len (t : AvlTree) : Nat := t.size

/-- Embeds `is_balanced` (lines 239-241). -/
def AvlTree.is_balanced (t : AvlTree) : Bool := (check_balanced t.root).isSome

/-- One public mutating operation. -/
inductive Op where
  | ins (v : ℤ)
  | rem (v : ℤ)
deriving DecidableEq, Repr

/-- Apply one operation to the tree (`insert` discards no result; `remove`
returns a flag that the state does not depend on beyond the size update). -/
def applyOp (t : AvlTree) : Op → AvlTree
  | .ins v => t.insert v
  | .rem v => (t.remove v).1

/-- Apply a sequence of operations from left to right. -/
def applyOps (t : AvlTree) (ops : List Op) : AvlTree := ops.foldl applyOp t

/-- Height caches are everywhere correct. -/
def hOk : Tree → Bool
  | .nil => true
  | .node _ l r h =>
    hOk l && hOk r && (h == 1 + max (node_height l) (node_height r))

/-- The AVL balance invariant on the (correct) caches. -/
def avlOk : Tree → Bool
  | .nil => true
  | .node _ l r _ =>
    avlOk l && avlOk r &&
      decide (((node_height l : ℤ) - (node_height r : ℤ)).natAbs ≤ 1)

/-- Structural membership (set of stored values, ignoring order). -/
def memP (x : ℤ) : Tree → Prop
  | .nil => False
  | .node v l r _ => x = v ∨ memP x l ∨ memP x r

/-- Every stored value satisfies `p`. -/
def allP (p : ℤ → Prop) : Tree → Prop
  | .nil => True
  | .node v l r _ => p v ∧ allP p l ∧ allP p r

/-- The binary-search-tree ordering invariant (strict on both sides: no
duplicates), spec section 3.1. -/
def bst : Tree → Prop
  | .nil => True
  | .node v l r _ =>
    allP (fun y => y < v) l ∧ allP (fun y => v < y) r ∧ bst l ∧ bst r

/-- Raw per-value operation counts: the counting in claim C5's wording
("inserted more times than removed"), with every insert and remove of the
value counted whether or not it changed the tree. -/
def insertCount (x : ℤ) : List Op → Nat
  | [] => 0
  | .ins v :: ops => (if v = x then 1 else 0) + insertCount x ops
  | .rem _ :: ops => insertCount x ops

/-- Companion of `insertCount` for removes. -/
def removeCount (x : ℤ) : List Op → Nat
  | [] => 0
  | .ins _ :: ops => removeCount x ops
  | .rem v :: ops => (if v = x then 1 else 0) + removeCount x ops

/-- Reference set semantics of one operation: insert when absent, erase
when present. -/
def specStep (s : Finset ℤ) : Op → Finset ℤ
  | .ins v => if v ∈ s then s else insert v s
  | .rem v => s.erase v

/-- Effective (state-aware) counts for a value: an insert is counted only
when the value is absent at that point, a remove only when present — the
duplicate insert and the remove of an absent value are no-ops and not
counted. -/
def effCounts (x : ℤ) : Finset ℤ → List Op → Nat × Nat
  | _, [] => (0, 0)
  | s, .ins v :: ops =>
    if v = x ∧ v ∉ s then
      ((effCounts x (specStep s (.ins v)) ops).1 + 1,
        (effCounts x (specStep s (.ins v)) ops).2)
    else effCounts x (specStep s (.ins v)) ops
  | s, .rem v :: ops =>
    if v = x ∧ v ∈ s then
      ((effCounts x (specStep s (.rem v)) ops).1,
        (effCounts x (specStep s (.rem v)) ops).2 + 1)
    else effCounts x (specStep s (.rem v)) ops

end RustAvl

namespace RustCalc

/-! ### Generic evaluator lemmas -/

/-- On every error the whole calculator state is returned unchanged:
`evaluate` writes `last_result` only on the success path and writes memory
only on the whole-line store path, which returns `Ok` (calculator.rs lines
423-440). -/
theorem evaluate_error_state_eq (fns : MathFns) (st : CalcState)
    (input e : String) (h : (evaluate fns st input).1 = .error e) :
    (evaluate fns st input).2 = st := by
  unfold evaluate at h ⊢
  split at h
  next idx heq => simp at h
  next heq =>
    split at h
    next e2 heq2 => rfl
    next tokens heq2 =>
      split at h
      next pe heq3 => rfl
      next v p heq3 =>
        split at h
        next hlt => rw [if_pos hlt]
        next hlt => simp at h

/-- On every success the returned state's last-result register holds the
returned value (on the store path the returned value is the unchanged
register itself). -/
theorem evaluate_ok_last_result (fns : MathFns) (st : CalcState)
    (input : String) (v : ℚ) (h : (evaluate fns st input).1 = .ok v) :
    (evaluate fns st input).2.last_result = v := by
  unfold evaluate at h ⊢
  split at h
  next idx heq =>
    simp only [Except.ok.injEq] at h
    simpa using h
  next heq =>
    split at h
    next e2 heq2 => simp at h
    next tokens heq2 =>
      split at h
      next pe heq3 => simp at h
      next r p heq3 =>
        split at h
        next hlt => simp at h
        next hlt =>
          rw [if_neg hlt]
          simp only [Except.ok.injEq] at h
          simpa using h

/-- Evaluating the bare last-result reference always succeeds with the
current register value and a store-free state. -/
theorem evaluate_underscore (fns : MathFns) (st : CalcState) :
    (evaluate fns st "_").1 = .ok st.last_result := rfl

/-- Lemma: `evaluate "m3"` takes the whole-line store branch: it returns the
last-result register (and stores it into slot 3). -/
theorem evaluate_m3 (fns : MathFns) (st : CalcState) :
    (evaluate fns st "m3").1 = .ok st.last_result := rfl

/-- Lemma: `evaluate "(m3)"` reads slot 3 through the expression grammar. -/
theorem evaluate_paren_m3 (fns : MathFns) (st : CalcState) :
    (evaluate fns st "(m3)").1 = .ok (st.memory 3) := rfl

/-- Helper for domain checks: an `if`-guarded error is returned exactly when
the guard holds. -/
theorem error_iff_cond {c : Prop} [Decidable c] (m : String) (y : ℚ) :
    (∃ e, (if c then (Except.error m : Except String ℚ) else .ok y) = .error e) ↔ c := by
  split
  next hc => simp [hc]
  next hc => simp [hc]

/-- Helper: the source's out-of-domain test for `asin`/`acos` is the
complement of membership in the closed interval. -/
theorem out_of_unit_iff (x : ℚ) : (x < -1 ∨ x > 1) ↔ ¬(-1 ≤ x ∧ x ≤ 1) := by
  constructor
  · rintro (h | h) ⟨h1, h2⟩ <;> linarith
  · intro h
    by_contra h2
    push_neg at h2
    exact h ⟨h2.1, h2.2⟩

/-! ### Claim theorems for the expression evaluator -/

/-- C1, counterexample: from the all-zero initial state, `evaluate("-2**2")`
returns 4.0, not the claimed -4.0.  `parse_power` obtains its left operand
from `parse_unary`, which consumes the leading minus together with the
literal, so the input parses as `(-2)**2`. -/
theorem c1_counterexample :
    (evaluate fns0 initCalc "-2**2").1 = .ok 4 ∧ ((4 : ℚ) ≠ -4) := by
  constructor
  · have h : (evaluate fns0 initCalc "-2**2").1 = .ok (ratPow fns0 (-2) 2) := rfl
    rw [h]; norm_num [ratPow]
  · norm_num

/-- C1, amended: for the evaluator state in which `last_result` and all
memory slots are 0, `evaluate("-2**2")` succeeds and returns 4.0; the parser
applies unary minus before the power operator, parsing `-2**2` as
`(-2)**2`, because `parse_power` takes its left operand from `parse_unary`. -/
theorem c1_unary_minus_binds_first (fns : MathFns) :
    (evaluate fns initCalc "-2**2").1 = .ok 4 := by
  have h : (evaluate fns initCalc "-2**2").1 = .ok (ratPow fns (-2) 2) := rfl
  rw [h]; norm_num [ratPow]

/-- Witness for C1 (amended) at the concrete interpretation. -/
theorem c1_witness : (evaluate fns0 initCalc "-2**2").1 = .ok 4 :=
  c1_unary_minus_binds_first fns0

/-- C3: for every evaluator state and input on which `evaluate` returns an
error, the `last_result` register is unchanged, and a subsequent evaluation
of the input consisting of the underscore character yields the previous
register value (the most recent successful result, or 0 if none). -/
theorem c3_error_leaves_last_result (fns : MathFns) (st : CalcState)
    (input e : String) (h : (evaluate fns st input).1 = .error e) :
    (evaluate fns st input).2.last_result = st.last_result ∧
    (evaluate fns ((evaluate fns st input).2) "_").1 = .ok st.last_result := by
  rw [evaluate_error_state_eq fns st input e h]
  exact ⟨rfl, evaluate_underscore fns st⟩

/-- Witness for C3 at the failing input `1/0`. -/
theorem c3_witness :
    (evaluate fns0 initCalc "1/0").1 = .error "Division by zero" ∧
    ((evaluate fns0 initCalc "1/0").2.last_result = initCalc.last_result ∧
      (evaluate fns0 ((evaluate fns0 initCalc "1/0").2) "_").1 =
        .ok initCalc.last_result) :=
  ⟨rfl, c3_error_leaves_last_result fns0 initCalc "1/0" "Division by zero" rfl⟩

/-- C4, counterexample: evaluate `5` (so the last successful value is 5),
issue the whole-line store `m3`, then the clear `c3`.  Slot 3 now holds 0,
but `evaluate("m3")` yields 5, not the claimed cleared value 0: the input
`m3` given to `evaluate` is itself the whole-line store command, which
returns (and re-stores) the last-result register instead of reading the
slot (calculator.rs lines 424-428). -/
theorem c4_counterexample :
    (evaluate fns0 initCalc "5").1 = .ok 5 ∧
    (processLine fns0 (processLine fns0 ((evaluate fns0 initCalc "5").2) "m3")
        "c3").memory 3 = 0 ∧
    (evaluate fns0
        (processLine fns0 (processLine fns0 ((evaluate fns0 initCalc "5").2) "m3")
          "c3") "m3").1 = .ok 5 ∧
    ((5 : ℚ) ≠ 0) := by
  refine ⟨rfl, rfl, rfl, by norm_num⟩

/-- C4, amended: after `evaluate(E)` succeeds with value `v`, the whole-line
command `m3` stores `v` into slot 3, and both `evaluate("m3")` and a slot
read through the expression grammar such as `evaluate("(m3)")` yield `v`.
After the command `c3` the slot holds 0 and an expression read like
`evaluate("(m3)")` yields 0; `evaluate("m3")` itself, however, is the store
command: it still yields `v` (and re-stores it into the slot). -/
theorem c4_memory_roundtrip (fns : MathFns) (st : CalcState) (E : String)
    (v : ℚ) (h : (evaluate fns st E).1 = .ok v) :
    (processLine fns (evaluate fns st E).2 "m3").memory 3 = v ∧
    (evaluate fns (processLine fns (evaluate fns st E).2 "m3") "m3").1 = .ok v ∧
    (evaluate fns (processLine fns (evaluate fns st E).2 "m3") "(m3)").1 = .ok v ∧
    (processLine fns (processLine fns (evaluate fns st E).2 "m3") "c3").memory 3
      = 0 ∧
    (evaluate fns
        (processLine fns (processLine fns (evaluate fns st E).2 "m3") "c3")
        "(m3)").1 = .ok 0 ∧
    (evaluate fns
        (processLine fns (processLine fns (evaluate fns st E).2 "m3") "c3")
        "m3").1 = .ok v := by
  have hl : (evaluate fns st E).2.last_result = v :=
    evaluate_ok_last_result fns st E v h
  have h2 : processLine fns (evaluate fns st E).2 "m3" =
      { (evaluate fns st E).2 with
        memory := Function.update (evaluate fns st E).2.memory 3
          (evaluate fns st E).2.last_result } := rfl
  have hmem2 : (processLine fns (evaluate fns st E).2 "m3").memory 3 = v := by
    rw [h2]; simpa using hl
  have hlast2 : (processLine fns (evaluate fns st E).2 "m3").last_result = v := by
    rw [h2]; exact hl
  have h3 : processLine fns (processLine fns (evaluate fns st E).2 "m3") "c3" =
      { processLine fns (evaluate fns st E).2 "m3" with
        memory := Function.update
          (processLine fns (evaluate fns st E).2 "m3").memory 3 0 } := rfl
  have hmem3 : (processLine fns (processLine fns (evaluate fns st E).2 "m3")
      "c3").memory 3 = 0 := by
    rw [h3]; simp
  have hlast3 : (processLine fns (processLine fns (evaluate fns st E).2 "m3")
      "c3").last_result = v := by
    rw [h3]; exact hlast2
  refine ⟨hmem2, ?_, ?_, hmem3, ?_, ?_⟩
  · rw [evaluate_m3, hlast2]
  · rw [evaluate_paren_m3, hmem2]
  · rw [evaluate_paren_m3, hmem3]
  · rw [evaluate_m3, hlast3]

/-- Witness for C4 (amended) with `E = "5"`, `v = 5`. -/
theorem c4_witness :
    (evaluate fns0 initCalc "5").1 = .ok 5 ∧
    ((processLine fns0 (evaluate fns0 initCalc "5").2 "m3").memory 3 = 5 ∧
      (evaluate fns0 (processLine fns0 (evaluate fns0 initCalc "5").2 "m3")
        "m3").1 = .ok 5 ∧
      (evaluate fns0 (processLine fns0 (evaluate fns0 initCalc "5").2 "m3")
        "(m3)").1 = .ok 5 ∧
      (processLine fns0
        (processLine fns0 (evaluate fns0 initCalc "5").2 "m3") "c3").memory 3
        = 0 ∧
      (evaluate fns0
        (processLine fns0 (processLine fns0 (evaluate fns0 initCalc "5").2 "m3")
          "c3") "(m3)").1 = .ok 0 ∧
      (evaluate fns0
        (processLine fns0 (processLine fns0 (evaluate fns0 initCalc "5").2 "m3")
          "c3") "m3").1 = .ok 5) :=
  ⟨rfl, c4_memory_roundtrip fns0 initCalc "5" 5 rfl⟩

/-- C8: the power operator is right-associative: from the initial state,
`evaluate("2**3**2")` succeeds and returns 512.0 = 2**(3**2), because
`parse_power` recurses into itself on the right operand. -/
theorem c8_power_right_assoc (fns : MathFns) :
    (evaluate fns initCalc "2**3**2").1 = .ok 512 := by
  have h : (evaluate fns initCalc "2**3**2").1 =
      .ok (ratPow fns 2 (ratPow fns 3 2)) := rfl
  rw [h]; norm_num [ratPow]

/-- Witness for C8 at the concrete interpretation. -/
theorem c8_witness : (evaluate fns0 initCalc "2**3**2").1 = .ok 512 :=
  c8_power_right_assoc fns0

/-- C9: for every function-call argument value `x`, `asin` and `acos` error
exactly when `x` is outside `[-1, 1]`; `ln`, `log2`, `log10` error exactly
when `x` is not positive; `sqrt` errors exactly when `x` is negative; each
error carries the corresponding domain message, and on a representative
out-of-domain call the whole `evaluate` fails with that message. -/
theorem c9_domain_checks (fns : MathFns) :
    (∀ x : ℚ,
      ((∃ e, apply_known_function fns "asin" x = .error e) ↔ ¬(-1 ≤ x ∧ x ≤ 1)) ∧
      (¬(-1 ≤ x ∧ x ≤ 1) → apply_known_function fns "asin" x =
        .error "asin requires argument between -1 and 1") ∧
      ((∃ e, apply_known_function fns "acos" x = .error e) ↔ ¬(-1 ≤ x ∧ x ≤ 1)) ∧
      (¬(-1 ≤ x ∧ x ≤ 1) → apply_known_function fns "acos" x =
        .error "acos requires argument between -1 and 1") ∧
      ((∃ e, apply_known_function fns "ln" x = .error e) ↔ ¬(0 < x)) ∧
      (¬(0 < x) → apply_known_function fns "ln" x =
        .error "ln requires positive argument") ∧
      ((∃ e, apply_known_function fns "log2" x = .error e) ↔ ¬(0 < x)) ∧
      (¬(0 < x) → apply_known_function fns "log2" x =
        .error "log2 requires positive argument") ∧
      ((∃ e, apply_known_function fns "log10" x = .error e) ↔ ¬(0 < x)) ∧
      (¬(0 < x) → apply_known_function fns "log10" x =
        .error "log10 requires positive argument") ∧
      ((∃ e, apply_known_function fns "sqrt" x = .error e) ↔ ¬(0 ≤ x)) ∧
      (¬(0 ≤ x) → apply_known_function fns "sqrt" x =
        .error "sqrt requires non-negative argument")) ∧
    (evaluate fns initCalc "asin(2)").1 =
      .error "asin requires argument between -1 and 1" ∧
    (evaluate fns initCalc "acos(2)").1 =
      .error "acos requires argument between -1 and 1" ∧
    (evaluate fns initCalc "ln(0)").1 = .error "ln requires positive argument" ∧
    (evaluate fns initCalc "log2(0)").1 =
      .error "log2 requires positive argument" ∧
    (evaluate fns initCalc "log10(0)").1 =
      .error "log10 requires positive argument" ∧
    (evaluate fns initCalc "sqrt(-1)").1 =
      .error "sqrt requires non-negative argument" := by
  refine ⟨fun x => ?_, rfl, rfl, rfl, rfl, rfl, rfl⟩
  refine ⟨?_, ?_, ?_, ?_, ?_, ?_, ?_, ?_, ?_, ?_, ?_, ?_⟩
  · simp only [apply_known_function]
    rw [error_iff_cond]
    exact out_of_unit_iff x
  · intro hx
    simp only [apply_known_function]
    rw [if_pos ((out_of_unit_iff x).mpr hx)]
  · simp only [apply_known_function]
    rw [error_iff_cond]
    exact out_of_unit_iff x
  · intro hx
    simp only [apply_known_function]
    rw [if_pos ((out_of_unit_iff x).mpr hx)]
  · simp only [apply_known_function]
    rw [error_iff_cond]
    exact not_lt.symm
  · intro hx
    simp only [apply_known_function]
    rw [if_pos (not_lt.mp hx)]
  · simp only [apply_known_function]
    rw [error_iff_cond]
    exact not_lt.symm
  · intro hx
    simp only [apply_known_function]
    rw [if_pos (not_lt.mp hx)]
  · simp only [apply_known_function]
    rw [error_iff_cond]
    exact not_lt.symm
  · intro hx
    simp only [apply_known_function]
    rw [if_pos (not_lt.mp hx)]
  · simp only [apply_known_function]
    rw [error_iff_cond]
    exact not_le.symm
  · intro hx
    simp only [apply_known_function]
    rw [if_pos (not_le.mp hx)]

/-- Witness for C9 at `asin` with the out-of-domain argument 2. -/
theorem c9_witness :
    (∃ e, apply_known_function fns0 "asin" 2 = .error e) ∧
    (evaluate fns0 initCalc "sqrt(-1)").1 =
      .error "sqrt requires non-negative argument" :=
  ⟨((c9_domain_checks fns0).1 2).1.mpr (by norm_num),
    (c9_domain_checks fns0).2.2.2.2.2.2⟩

end RustCalc

namespace RustAvl

@[simp] theorem node_height_nil : node_height .nil = 0 := rfl

@[simp] theorem node_height_node (v : ℤ) (l r : Tree) (h : Nat) :
    node_height (.node v l r h) = h := rfl

@[simp] theorem node_height_update (v : ℤ) (l r : Tree) :
    node_height (update_height v l r) =
      1 + max (node_height l) (node_height r) := rfl

@[simp] theorem hOk_nil : hOk .nil = true := rfl

theorem hOk_node_iff {v : ℤ} {l r : Tree} {h : Nat} :
    hOk (.node v l r h) = true ↔
      hOk l = true ∧ hOk r = true ∧
        h = 1 + max (node_height l) (node_height r) := by
  simp [hOk, Bool.and_eq_true, and_assoc]

@[simp] theorem avlOk_nil : avlOk .nil = true := rfl

theorem avlOk_node_iff {v : ℤ} {l r : Tree} {h : Nat} :
    avlOk (.node v l r h) = true ↔
      avlOk l = true ∧ avlOk r = true ∧
        ((node_height l : ℤ) - (node_height r : ℤ)).natAbs ≤ 1 := by
  simp [avlOk, Bool.and_eq_true, and_assoc]

/-- The behaviour of `rebalance` stated once and for all: if both subtrees
satisfy the AVL invariant with correct caches and the node's imbalance is at
most 2, the result satisfies the invariant with correct caches, and its
height is the recomputed height `1 + max`, or one less in (some) imbalanced
cases. -/
theorem rebalance_spec (v : ℤ) (l r : Tree) (h : Nat)
    (hl : hOk l = true) (hr : hOk r = true)
    (al : avlOk l = true) (ar : avlOk r = true)
    (hbal : ((node_height l : ℤ) - node_height r).natAbs ≤ 2) :
    hOk (rebalance (.node v l r h)) = true ∧
    avlOk (rebalance (.node v l r h)) = true ∧
    (node_height (rebalance (.node v l r h)) =
        1 + max (node_height l) (node_height r) ∨
      (((node_height l : ℤ) - node_height r).natAbs = 2 ∧
        node_height (rebalance (.node v l r h)) + 1 =
          1 + max (node_height l) (node_height r))) := by
  have hbf : balance_factor (update_height v l r) =
      (node_height l : ℤ) - node_height r := rfl
  simp only [rebalance, hbf]
  split_ifs with hgt hlb hlt hrb
  · -- left heavy, left child right heavy: double rotation
    cases l with
    | nil => simp at hgt; omega
    | node lv ll lr lh =>
      obtain ⟨hll, hlr, hlh⟩ := hOk_node_iff.mp hl
      obtain ⟨all, alr, albal⟩ := avlOk_node_iff.mp al
      simp only [balance_factor] at hlb
      simp only [node_height_node] at *
      cases lr with
      | nil => simp at hlb hlh albal ⊢; omega
      | node z c d dh =>
        obtain ⟨hc, hd, hdh⟩ := hOk_node_iff.mp hlr
        obtain ⟨ac, ad, adbal⟩ := avlOk_node_iff.mp alr
        simp only [node_height_node] at *
        simp [rotate_left, rotate_right, update_height, hOk, avlOk, hll, hc,
          hd, hr, all, ac, ad, ar]
        omega
  · -- left heavy, single right rotation
    cases l with
    | nil => simp at hgt; omega
    | node lv ll lr lh =>
      obtain ⟨hll, hlr, hlh⟩ := hOk_node_iff.mp hl
      obtain ⟨all, alr, albal⟩ := avlOk_node_iff.mp al
      simp only [balance_factor] at hlb
      simp only [node_height_node] at *
      simp [rotate_right, update_height, hOk, avlOk, hll, hlr, hr, all, alr,
        ar]
      omega
  · -- right heavy, right child left heavy: double rotation
    cases r with
    | nil => simp at hlt; omega
    | node rv rl rr rh =>
      obtain ⟨hrl, hrr, hrh⟩ := hOk_node_iff.mp hr
      obtain ⟨arl, arr, arbal⟩ := avlOk_node_iff.mp ar
      simp only [balance_factor] at hrb
      simp only [node_height_node] at *
      cases rl with
      | nil => simp at hrb hrh arbal ⊢; omega
      | node z c d dh =>
        obtain ⟨hc, hd, hdh⟩ := hOk_node_iff.mp hrl
        obtain ⟨ac, ad, adbal⟩ := avlOk_node_iff.mp arl
        simp only [node_height_node] at *
        simp [rotate_left, rotate_right, update_height, hOk, avlOk, hl, hc,
          hd, hrr, al, ac, ad, arr]
        omega
  · -- right heavy, single left rotation
    cases r with
    | nil => simp at hlt; omega
    | node rv rl rr rh =>
      obtain ⟨hrl, hrr, hrh⟩ := hOk_node_iff.mp hr
      obtain ⟨arl, arr, arbal⟩ := avlOk_node_iff.mp ar
      simp only [balance_factor] at hrb
      simp only [node_height_node] at *
      simp [rotate_left, update_height, hOk, avlOk, hl, hrl, hrr, al, arl,
        arr]
      omega
  · -- already balanced
    simp [update_height, hOk, avlOk, hl, hr, al, ar]
    omega

/-- Lemma: `insert_node` preserves correct caches and AVL balance; the height grows
by at most one; an unsuccessful insert leaves the tree unchanged. -/
theorem insert_spec (x : ℤ) :
    ∀ t : Tree, hOk t = true → avlOk t = true →
      hOk (insert_node t x).1 = true ∧ avlOk (insert_node t x).1 = true ∧
      (node_height (insert_node t x).1 = node_height t ∨
        node_height (insert_node t x).1 = node_height t + 1) ∧
      ((insert_node t x).2 = false → (insert_node t x).1 = t)
  | .nil, _, _ => by simp [insert_node, hOk, avlOk]
  | .node v l r h, ht, at_ => by
    obtain ⟨hl, hr, hh⟩ := hOk_node_iff.mp ht
    obtain ⟨al, ar, ab⟩ := avlOk_node_iff.mp at_
    by_cases hx1 : x < v
    · rcases hil : insert_node l x with ⟨l2, ins⟩
      have ih := insert_spec x l hl al
      rw [hil] at ih
      obtain ⟨ih1, ih2, ih3, ih4⟩ := ih
      simp only [insert_node, if_pos hx1, hil]
      cases ins with
      | false =>
        have hl2 : l2 = l := ih4 rfl
        subst hl2
        simp only [if_neg Bool.false_ne_true, node_height_node]
        exact ⟨ht, at_, by simp, by simp⟩
      | true =>
        have hspec := rebalance_spec v l2 r h ih1 hr ih2 ar (by
          simp only [node_height_node] at *
          omega)
        simp only [eq_self_iff_true, if_true, node_height_node] at *
        refine ⟨hspec.1, hspec.2.1, ?_, by simp⟩
        have := hspec.2.2
        omega
    · by_cases hx2 : v < x
      · rcases hir : insert_node r x with ⟨r2, ins⟩
        have ih := insert_spec x r hr ar
        rw [hir] at ih
        obtain ⟨ih1, ih2, ih3, ih4⟩ := ih
        simp only [insert_node, if_neg hx1, if_pos hx2, hir]
        cases ins with
        | false =>
          have hr2 : r2 = r := ih4 rfl
          subst hr2
          simp only [if_neg Bool.false_ne_true, node_height_node]
          exact ⟨ht, at_, by simp, by simp⟩
        | true =>
          have hspec := rebalance_spec v l r2 h hl ih1 al ih2 (by
            simp only [node_height_node] at *
            omega)
          simp only [eq_self_iff_true, if_true, node_height_node] at *
          refine ⟨hspec.1, hspec.2.1, ?_, by simp⟩
          have := hspec.2.2
          omega
      · simp only [insert_node, if_neg hx1, if_neg hx2]
        exact ⟨ht, at_, by simp, by simp⟩

/-- Lemma: `extract_min` on a nonempty tree preserves caches and balance and
lowers the height by at most one. -/
theorem extract_min_spec :
    ∀ (v : ℤ) (l r : Tree) (h : Nat),
      hOk (.node v l r h) = true → avlOk (.node v l r h) = true →
      hOk (extract_min (.node v l r h)).2 = true ∧
      avlOk (extract_min (.node v l r h)).2 = true ∧
      (node_height (extract_min (.node v l r h)).2 = h ∨
        node_height (extract_min (.node v l r h)).2 + 1 = h)
  | v, .nil, r, h, ht, at_ => by
    obtain ⟨-, hr, hh⟩ := hOk_node_iff.mp ht
    obtain ⟨-, ar, ab⟩ := avlOk_node_iff.mp at_
    simp only [extract_min]
    refine ⟨hr, ar, ?_⟩
    simp only [node_height_nil] at hh ab
    omega
  | v, .node lv ll lr lh, r, h, ht, at_ => by
    obtain ⟨hl, hr, hh⟩ := hOk_node_iff.mp ht
    obtain ⟨al, ar, ab⟩ := avlOk_node_iff.mp at_
    rcases hie : extract_min (.node lv ll lr lh) with ⟨m, l2⟩
    have ih := extract_min_spec lv ll lr lh hl al
    rw [hie] at ih
    obtain ⟨ih1, ih2, ih3⟩ := ih
    simp only [extract_min, hie]
    have hspec := rebalance_spec v l2 r h ih1 hr ih2 ar (by
      simp only [node_height_node] at *
      omega)
    refine ⟨hspec.1, hspec.2.1, ?_⟩
    have := hspec.2.2
    simp only [node_height_node] at *
    omega

/-- Lemma: `remove_node` preserves correct caches and AVL balance; the height
shrinks by at most one; an unsuccessful remove leaves the tree unchanged. -/
theorem remove_spec (x : ℤ) :
    ∀ t : Tree, hOk t = true → avlOk t = true →
      hOk (remove_node t x).1 = true ∧ avlOk (remove_node t x).1 = true ∧
      (node_height (remove_node t x).1 = node_height t ∨
        node_height (remove_node t x).1 + 1 = node_height t) ∧
      ((remove_node t x).2 = false → (remove_node t x).1 = t)
  | .nil, _, _ => by simp [remove_node]
  | .node v l r h, ht, at_ => by
    obtain ⟨hl, hr, hh⟩ := hOk_node_iff.mp ht
    obtain ⟨al, ar, ab⟩ := avlOk_node_iff.mp at_
    by_cases hx1 : x < v
    · rcases hirm : remove_node l x with ⟨l2, rem⟩
      have ih := remove_spec x l hl al
      rw [hirm] at ih
      obtain ⟨ih1, ih2, ih3, ih4⟩ := ih
      simp only [remove_node, if_pos hx1, hirm]
      cases rem with
      | false =>
        have hl2 : l2 = l := ih4 rfl
        subst hl2
        simp only [if_neg Bool.false_ne_true, node_height_node]
        exact ⟨ht, at_, by simp, by simp⟩
      | true =>
        have hspec := rebalance_spec v l2 r h ih1 hr ih2 ar (by
          simp only [node_height_node] at *
          omega)
        simp only [eq_self_iff_true, if_true, node_height_node] at *
        refine ⟨hspec.1, hspec.2.1, ?_, by simp⟩
        have := hspec.2.2
        omega
    · by_cases hx2 : v < x
      · rcases hirm : remove_node r x with ⟨r2, rem⟩
        have ih := remove_spec x r hr ar
        rw [hirm] at ih
        obtain ⟨ih1, ih2, ih3, ih4⟩ := ih
        simp only [remove_node, if_neg hx1, if_pos hx2, hirm]
        cases rem with
        | false =>
          have hr2 : r2 = r := ih4 rfl
          subst hr2
          simp only [if_neg Bool.false_ne_true, node_height_node]
          exact ⟨ht, at_, by simp, by simp⟩
        | true =>
          have hspec := rebalance_spec v l r2 h hl ih1 al ih2 (by
            simp only [node_height_node] at *
            omega)
          simp only [eq_self_iff_true, if_true, node_height_node] at *
          refine ⟨hspec.1, hspec.2.1, ?_, by simp⟩
          have := hspec.2.2
          omega
      · -- the node matches: splice
        cases l with
        | nil =>
          cases r with
          | nil =>
            simp only [remove_node, if_neg hx1, if_neg hx2]
            simp only [node_height_nil] at hh
            simp [hh]
          | node rv rl rr rh =>
            simp only [remove_node, if_neg hx1, if_neg hx2]
            refine ⟨hr, ar, ?_, by simp⟩
            simp only [node_height_nil, node_height_node] at *
            omega
        | node lv ll lr lh =>
          cases r with
          | nil =>
            simp only [remove_node, if_neg hx1, if_neg hx2]
            refine ⟨hl, al, ?_, by simp⟩
            simp only [node_height_nil, node_height_node] at *
            omega
          | node rv rl rr rh =>
            rcases hie : extract_min (.node rv rl rr rh) with ⟨m, r2⟩
            have ihe := extract_min_spec rv rl rr rh hr ar
            rw [hie] at ihe
            obtain ⟨ih1, ih2, ih3⟩ := ihe
            have ih1a : hOk r2 = true := ih1
            have ih2a : avlOk r2 = true := ih2
            have ih3a : node_height r2 = rh ∨ node_height r2 + 1 = rh := ih3
            simp only [remove_node, if_neg hx1, if_neg hx2, hie,
              update_height]
            have hspec := rebalance_spec m (.node lv ll lr lh) r2
              (1 + max (node_height (.node lv ll lr lh)) (node_height r2))
              hl ih1a al ih2a (by
                simp only [node_height_node] at *
                omega)
            refine ⟨hspec.1, hspec.2.1, ?_, by simp⟩
            have := hspec.2.2
            simp only [node_height_node] at *
            omega

/-- Under correct caches and AVL balance, the validator recomputes exactly
the cached height and succeeds. -/
theorem check_balanced_of_invariant :
    ∀ t : Tree, hOk t = true → avlOk t = true →
      check_balanced t = some (node_height t)
  | .nil, _, _ => rfl
  | .node v l r h, ht, at_ => by
    obtain ⟨hl, hr, hh⟩ := hOk_node_iff.mp ht
    obtain ⟨al, ar, ab⟩ := avlOk_node_iff.mp at_
    have ihl := check_balanced_of_invariant l hl al
    have ihr := check_balanced_of_invariant r hr ar
    simp only [check_balanced, ihl, ihr]
    rw [if_neg (by omega)]
    simp [hh]

/-- One public operation preserves the conjunction of the two structural
invariants on the root. -/
theorem applyOp_invariant (t : AvlTree) (ht : hOk t.root = true)
    (ha : avlOk t.root = true) (op : Op) :
    hOk (applyOp t op).root = true ∧ avlOk (applyOp t op).root = true := by
  cases op with
  | ins v =>
    have hs := insert_spec v t.root ht ha
    rcases h : insert_node t.root v with ⟨nr, ins⟩
    rw [h] at hs
    simp only [applyOp, AvlTree.insert, h]
    exact ⟨hs.1, hs.2.1⟩
  | rem v =>
    have hs := remove_spec v t.root ht ha
    rcases h : remove_node t.root v with ⟨nr, rem⟩
    rw [h] at hs
    simp only [applyOp, AvlTree.remove, h]
    exact ⟨hs.1, hs.2.1⟩

/-- The invariants hold along any operation sequence from any invariant
state. -/
theorem applyOps_invariant :
    ∀ (ops : List Op) (t : AvlTree), hOk t.root = true → avlOk t.root = true →
      hOk (applyOps t ops).root = true ∧ avlOk (applyOps t ops).root = true
  | [], t, ht, ha => ⟨ht, ha⟩
  | op :: ops, t, ht, ha => by
    have h1 := applyOp_invariant t ht ha op
    exact applyOps_invariant ops (applyOp t op) h1.1 h1.2

/-- C2: for every finite sequence of inserts and removes applied from
`AvlTree::new()`, `is_balanced()` holds afterwards (hence after each
operation of any sequence, taking prefixes). -/
theorem c2_always_balanced (ops : List Op) :
    (applyOps AvlTree.new ops).is_balanced = true := by
  have h := applyOps_invariant ops AvlTree.new rfl rfl
  unfold AvlTree.is_balanced
  rw [check_balanced_of_invariant _ h.1 h.2]
  rfl

/-- Witness for C2 on a concrete mixed sequence. -/
theorem c2_witness :
    (applyOps AvlTree.new
      [.ins 1, .ins 2, .ins 3, .ins 4, .rem 2, .rem 5]).is_balanced = true :=
  c2_always_balanced [.ins 1, .ins 2, .ins 3, .ins 4, .rem 2, .rem 5]

/-- C6: in the ambiguous cases the engine takes the single rotation: a node
with balance factor above 1 whose left child has balance factor exactly 0
is rebalanced by `rotate_right` alone (the left child is not pre-rotated),
and symmetrically with `rotate_left` for the right-heavy case. -/
theorem c6_tie_break_single_rotation :
    (∀ (v : ℤ) (l r : Tree) (h : Nat),
      balance_factor (update_height v l r) > 1 → balance_factor l = 0 →
      rebalance (.node v l r h) = rotate_right (update_height v l r)) ∧
    (∀ (v : ℤ) (l r : Tree) (h : Nat),
      balance_factor (update_height v l r) < -1 → balance_factor r = 0 →
      rebalance (.node v l r h) = rotate_left (update_height v l r)) := by
  constructor
  · intro v l r h hbf hlbf
    simp only [rebalance]
    rw [if_pos hbf, if_neg (by omega : ¬ balance_factor l < 0)]
  · intro v l r h hbf hrbf
    simp only [rebalance]
    rw [if_neg (by omega : ¬ balance_factor (update_height v l r) > 1),
      if_pos hbf, if_neg (by omega : ¬ balance_factor r > 0)]

/-- Witness for C6: a left-heavy node whose left child has balance factor 0
is fixed by the single right rotation, and the mirror image by the single
left rotation.  The cached height argument 9 is arbitrary: `rebalance`
recomputes it. -/
theorem c6_witness :
    (balance_factor (update_height 3
        (.node 1 (.node 0 .nil .nil 1) (.node 2 .nil .nil 1) 2) .nil) > 1 ∧
      balance_factor (.node 1 (.node 0 .nil .nil 1) (.node 2 .nil .nil 1) 2)
        = 0 ∧
      rebalance (.node 3
          (.node 1 (.node 0 .nil .nil 1) (.node 2 .nil .nil 1) 2) .nil 9) =
        rotate_right (update_height 3
          (.node 1 (.node 0 .nil .nil 1) (.node 2 .nil .nil 1) 2) .nil)) ∧
    (balance_factor (update_height 3 .nil
        (.node 5 (.node 4 .nil .nil 1) (.node 6 .nil .nil 1) 2)) < -1 ∧
      balance_factor (.node 5 (.node 4 .nil .nil 1) (.node 6 .nil .nil 1) 2)
        = 0 ∧
      rebalance (.node 3 .nil
          (.node 5 (.node 4 .nil .nil 1) (.node 6 .nil .nil 1) 2) 9) =
        rotate_left (update_height 3 .nil
          (.node 5 (.node 4 .nil .nil 1) (.node 6 .nil .nil 1) 2))) :=
  ⟨⟨by decide, by decide,
      c6_tie_break_single_rotation.1 3
        (.node 1 (.node 0 .nil .nil 1) (.node 2 .nil .nil 1) 2) .nil 9
        (by decide) (by decide)⟩,
    ⟨by decide, by decide,
      c6_tie_break_single_rotation.2 3 .nil
        (.node 5 (.node 4 .nil .nil 1) (.node 6 .nil .nil 1) 2) 9
        (by decide) (by decide)⟩⟩

/-- C10: under the claim's preconditions (both subtrees AVL with correct
caches, own balance factor of magnitude at most 2) the panic-aware
`rebalanceO` agrees with the total `rebalance`: no `unwrap` inside
`rebalance`, `rotate_right` or `rotate_left` panics. -/
theorem c10_rebalance_no_panic (v : ℤ) (l r : Tree) (h : Nat)
    (hl : hOk l = true) (hr : hOk r = true)
    (al : avlOk l = true) (ar : avlOk r = true)
    (hbal : ((node_height l : ℤ) - node_height r).natAbs ≤ 2) :
    rebalanceO (.node v l r h) = some (rebalance (.node v l r h)) := by
  simp only [rebalanceO, rebalance]
  split_ifs with hgt hlb hlt hrb
  · -- double rotation on the left: the left child and its right child exist
    cases l with
    | nil =>
      exfalso
      simp only [balance_factor, update_height, node_height_nil] at hgt
      omega
    | node lv ll lr lh =>
      cases lr with
      | nil =>
        exfalso
        simp only [balance_factor, node_height_nil] at hlb
        omega
      | node z c d dh =>
        simp [rotate_leftO, rotate_rightO, rotate_left, rotate_right,
          update_height]
  · -- single right rotation: the left child exists
    cases l with
    | nil =>
      exfalso
      simp only [balance_factor, update_height, node_height_nil] at hgt
      omega
    | node lv ll lr lh =>
      simp [rotate_rightO, rotate_right, update_height]
  · -- double rotation on the right
    cases r with
    | nil =>
      exfalso
      simp only [balance_factor, update_height, node_height_nil] at hlt
      omega
    | node rv rl rr rh =>
      cases rl with
      | nil =>
        exfalso
        simp only [balance_factor, node_height_nil] at hrb
        omega
      | node z c d dh =>
        simp [rotate_leftO, rotate_rightO, rotate_left, rotate_right,
          update_height]
  · -- single left rotation: the right child exists
    cases r with
    | nil =>
      exfalso
      simp only [balance_factor, update_height, node_height_nil] at hlt
      omega
    | node rv rl rr rh =>
      simp [rotate_leftO, rotate_left, update_height]
  · rfl

/-- Witness for C10 on a concrete left-heavy node. -/
theorem c10_witness :
    (hOk (.node 1 (.node 0 .nil .nil 1) .nil 2) = true ∧
      hOk (.nil : Tree) = true ∧
      avlOk (.node 1 (.node 0 .nil .nil 1) .nil 2) = true ∧
      avlOk (.nil : Tree) = true ∧
      ((node_height (.node 1 (.node 0 .nil .nil 1) .nil 2) : ℤ) -
        node_height (.nil : Tree)).natAbs ≤ 2) ∧
    rebalanceO (.node 2 (.node 1 (.node 0 .nil .nil 1) .nil 2) .nil 3) =
      some (rebalance (.node 2 (.node 1 (.node 0 .nil .nil 1) .nil 2) .nil 3)) :=
  ⟨⟨by decide, by decide, by decide, by decide, by decide⟩,
    c10_rebalance_no_panic 2 (.node 1 (.node 0 .nil .nil 1) .nil 2) .nil 3
      (by decide) (by decide) (by decide) (by decide) (by decide)⟩

@[simp] theorem memP_nil (x : ℤ) : memP x .nil ↔ False := Iff.rfl

@[simp] theorem memP_node (x v : ℤ) (l r : Tree) (h : Nat) :
    memP x (.node v l r h) ↔ x = v ∨ memP x l ∨ memP x r := Iff.rfl

@[simp] theorem allP_nil (p : ℤ → Prop) : allP p .nil ↔ True := Iff.rfl

@[simp] theorem allP_node (p : ℤ → Prop) (v : ℤ) (l r : Tree) (h : Nat) :
    allP p (.node v l r h) ↔ p v ∧ allP p l ∧ allP p r := Iff.rfl

@[simp] theorem bst_nil : bst .nil ↔ True := Iff.rfl

@[simp] theorem bst_node (v : ℤ) (l r : Tree) (h : Nat) :
    bst (.node v l r h) ↔
      allP (fun y => y < v) l ∧ allP (fun y => v < y) r ∧ bst l ∧ bst r :=
  Iff.rfl

theorem allP_of_memP {p : ℤ → Prop} {x : ℤ} :
    ∀ {t : Tree}, allP p t → memP x t → p x
  | .nil, _, hm => hm.elim
  | .node v l r h, ha, hm => by
    rcases hm with rfl | hm | hm
    · exact ha.1
    · exact allP_of_memP ha.2.1 hm
    · exact allP_of_memP ha.2.2 hm

theorem allP_imp {p q : ℤ → Prop} (hpq : ∀ y, p y → q y) :
    ∀ {t : Tree}, allP p t → allP q t
  | .nil, _ => trivial
  | .node v l r h, ha =>
    ⟨hpq v ha.1, allP_imp hpq ha.2.1, allP_imp hpq ha.2.2⟩

/-- Rotations neither add nor drop stored values. -/
theorem memP_rotate_right (x : ℤ) (t : Tree) :
    memP x (rotate_right t) ↔ memP x t := by
  cases t with
  | nil => rfl
  | node v l r h =>
    cases l with
    | nil => rfl
    | node lv ll lr lh =>
      simp [rotate_right, update_height]
      tauto

theorem memP_rotate_left (x : ℤ) (t : Tree) :
    memP x (rotate_left t) ↔ memP x t := by
  cases t with
  | nil => rfl
  | node v l r h =>
    cases r with
    | nil => rfl
    | node rv rl rr rh =>
      simp [rotate_left, update_height]
      tauto

theorem allP_rotate_right (p : ℤ → Prop) (t : Tree) :
    allP p (rotate_right t) ↔ allP p t := by
  cases t with
  | nil => rfl
  | node v l r h =>
    cases l with
    | nil => rfl
    | node lv ll lr lh =>
      simp [rotate_right, update_height]
      tauto

theorem allP_rotate_left (p : ℤ → Prop) (t : Tree) :
    allP p (rotate_left t) ↔ allP p t := by
  cases t with
  | nil => rfl
  | node v l r h =>
    cases r with
    | nil => rfl
    | node rv rl rr rh =>
      simp [rotate_left, update_height]
      tauto

/-- Rotations preserve the search-tree ordering. -/
theorem bst_rotate_right {t : Tree} (ht : bst t) : bst (rotate_right t) := by
  cases t with
  | nil => exact ht
  | node v l r h =>
    cases l with
    | nil => exact ht
    | node lv ll lr lh =>
      obtain ⟨⟨hlv, hll, hlr⟩, hr, ⟨bll, blr, bll2, blr2⟩, br⟩ := ht
      refine ⟨bll, ⟨hlv, ?_, ?_⟩, bll2, ?_, ?_, blr2, br⟩
      · exact blr
      · exact allP_imp (fun y hy => lt_trans hlv hy) hr
      · exact hlr
      · exact hr

theorem bst_rotate_left {t : Tree} (ht : bst t) : bst (rotate_left t) := by
  cases t with
  | nil => exact ht
  | node v l r h =>
    cases r with
    | nil => exact ht
    | node rv rl rr rh =>
      obtain ⟨hl, ⟨hrv, hrl, hrr⟩, bl, ⟨brl, brr, brl2, brr2⟩⟩ := ht
      refine ⟨⟨hrv, ?_, ?_⟩, brr, ⟨?_, ?_, bl, brl2⟩, brr2⟩
      · exact allP_imp (fun y hy => lt_trans hy hrv) hl
      · exact brl
      · exact hl
      · exact hrl

/-- Lemma: `rebalance` neither adds nor drops stored values. -/
theorem memP_rebalance (x : ℤ) (t : Tree) :
    memP x (rebalance t) ↔ memP x t := by
  cases t with
  | nil => rfl
  | node v l r h =>
    simp only [rebalance]
    split_ifs with hgt hlb hlt hrb
    · rw [memP_rotate_right]
      simp [memP_rotate_left]
    · rw [memP_rotate_right]
      simp [update_height]
    · rw [memP_rotate_left]
      simp [memP_rotate_right]
    · rw [memP_rotate_left]
      simp [update_height]
    · simp [update_height]

theorem allP_rebalance (p : ℤ → Prop) (t : Tree) :
    allP p (rebalance t) ↔ allP p t := by
  cases t with
  | nil => rfl
  | node v l r h =>
    simp only [rebalance]
    split_ifs with hgt hlb hlt hrb
    · rw [allP_rotate_right]
      simp [allP_rotate_left]
    · rw [allP_rotate_right]
      simp [update_height]
    · rw [allP_rotate_left]
      simp [allP_rotate_right]
    · rw [allP_rotate_left]
      simp [update_height]
    · simp [update_height]

/-- Lemma: `rebalance` preserves the search-tree ordering. -/
theorem bst_rebalance {t : Tree} (ht : bst t) : bst (rebalance t) := by
  cases t with
  | nil => exact ht
  | node v l r h =>
    obtain ⟨hl, hr, bl, br⟩ := ht
    simp only [rebalance]
    split_ifs with hgt hlb hlt hrb
    · refine bst_rotate_right ?_
      refine ⟨?_, hr, bst_rotate_left bl, br⟩
      rw [allP_rotate_left]
      exact hl
    · exact bst_rotate_right ⟨hl, hr, bl, br⟩
    · refine bst_rotate_left ?_
      refine ⟨hl, ?_, bl, bst_rotate_right br⟩
      rw [allP_rotate_right]
      exact hr
    · exact bst_rotate_left ⟨hl, hr, bl, br⟩
    · exact ⟨hl, hr, bl, br⟩

/-- Lemma: `insert_node` and stored values: ordering is preserved, the value set
gains exactly `x`, the flag reports prior absence, bounds that also hold of
`x` are preserved, and a failed insert changes nothing. -/
theorem insert_mem_spec (x : ℤ) :
    ∀ t : Tree, bst t →
      bst (insert_node t x).1 ∧
      (∀ y, memP y (insert_node t x).1 ↔ y = x ∨ memP y t) ∧
      ((insert_node t x).2 = true ↔ ¬ memP x t) ∧
      (∀ p : ℤ → Prop, allP p t → p x → allP p (insert_node t x).1) ∧
      ((insert_node t x).2 = false → (insert_node t x).1 = t)
  | .nil, _ => by
    refine ⟨⟨trivial, trivial, trivial, trivial⟩, by simp [insert_node],
      by simp [insert_node], ?_, by simp [insert_node]⟩
    intro p _ hpx
    simp [insert_node]
    exact hpx
  | .node v l r h, ht => by
    obtain ⟨hl, hr, bl, br⟩ := ht
    by_cases hx1 : x < v
    · rcases hi : insert_node l x with ⟨l2, ins⟩
      have ih := insert_mem_spec x l bl
      rw [hi] at ih
      obtain ⟨ihb, ihm, ihf, iha, ihu⟩ := ih
      simp only [insert_node, if_pos hx1, hi]
      cases ins with
      | false =>
        have hxl : memP x l := by
          by_contra hc
          exact absurd (ihf.mpr hc) (by simp)
        have hl2 : l2 = l := ihu rfl
        subst hl2
        simp only [if_neg Bool.false_ne_true]
        refine ⟨⟨hl, hr, bl, br⟩, ?_, ?_, fun p hp _ => hp, by simp⟩
        · intro y
          simp only [memP_node]
          constructor
          · tauto
          · rintro (rfl | hy)
            · exact Or.inr (Or.inl hxl)
            · exact hy
        · simp only [memP_node]
          constructor
          · intro hc
            exact absurd hc (by simp)
          · intro hc
            exact absurd (Or.inr (Or.inl hxl)) hc
      | true =>
        simp only [eq_self_iff_true, if_true]
        have hmxr : ¬ memP x r := fun hc =>
          absurd (allP_of_memP hr hc) (by omega)
        refine ⟨?_, ?_, ?_, ?_, by simp⟩
        · exact bst_rebalance ⟨iha _ hl hx1, hr, ihb, br⟩
        · intro y
          rw [memP_rebalance]
          simp only [memP_node, ihm y]
          tauto
        · rw [true_iff]
          simp only [memP_node]
          rintro (rfl | hc | hc)
          · exact absurd hx1 (lt_irrefl _)
          · exact (ihf.mp rfl) hc
          · exact hmxr hc
        · intro p hp hpx
          rw [allP_rebalance]
          exact ⟨hp.1, iha p hp.2.1 hpx, hp.2.2⟩
    · by_cases hx2 : v < x
      · rcases hi : insert_node r x with ⟨r2, ins⟩
        have ih := insert_mem_spec x r br
        rw [hi] at ih
        obtain ⟨ihb, ihm, ihf, iha, ihu⟩ := ih
        simp only [insert_node, if_neg hx1, if_pos hx2, hi]
        cases ins with
        | false =>
          have hxr : memP x r := by
            by_contra hc
            exact absurd (ihf.mpr hc) (by simp)
          have hr2 : r2 = r := ihu rfl
          subst hr2
          simp only [if_neg Bool.false_ne_true]
          refine ⟨⟨hl, hr, bl, br⟩, ?_, ?_, fun p hp _ => hp, by simp⟩
          · intro y
            simp only [memP_node]
            constructor
            · tauto
            · rintro (rfl | hy)
              · exact Or.inr (Or.inr hxr)
              · exact hy
          · simp only [memP_node]
            constructor
            · intro hc
              exact absurd hc (by simp)
            · intro hc
              exact absurd (Or.inr (Or.inr hxr)) hc
        | true =>
          simp only [eq_self_iff_true, if_true]
          have hmxl : ¬ memP x l := fun hc =>
            absurd (allP_of_memP hl hc) (by omega)
          refine ⟨?_, ?_, ?_, ?_, by simp⟩
          · exact bst_rebalance ⟨hl, iha _ hr hx2, bl, ihb⟩
          · intro y
            rw [memP_rebalance]
            simp only [memP_node, ihm y]
            tauto
          · rw [true_iff]
            simp only [memP_node]
            rintro (rfl | hc | hc)
            · exact absurd hx2 (lt_irrefl _)
            · exact hmxl hc
            · exact (ihf.mp rfl) hc
          · intro p hp hpx
            rw [allP_rebalance]
            exact ⟨hp.1, hp.2.1, iha p hp.2.2 hpx⟩
      · have hxv : x = v := by omega
        subst hxv
        simp only [insert_node, if_neg hx1, if_neg hx2]
        refine ⟨⟨hl, hr, bl, br⟩, ?_, ?_, fun p hp _ => hp, by simp⟩
        · intro y
          simp only [memP_node]
          tauto
        · simp only [memP_node]
          constructor
          · intro hc
            exact absurd hc (by simp)
          · intro hc
            exact absurd (Or.inl trivial) hc

/-- Lemma: `extract_min` and stored values: it returns a stored value that is a
strict lower bound of the remaining values, the remaining value set is the
original minus the minimum, ordering and bounds are preserved. -/
theorem extract_min_mem_spec :
    ∀ (v : ℤ) (l r : Tree) (h : Nat), bst (.node v l r h) →
      memP (extract_min (.node v l r h)).1 (.node v l r h) ∧
      bst (extract_min (.node v l r h)).2 ∧
      (∀ y, memP y (extract_min (.node v l r h)).2 ↔
        memP y (.node v l r h) ∧ y ≠ (extract_min (.node v l r h)).1) ∧
      allP (fun y => (extract_min (.node v l r h)).1 < y)
        (extract_min (.node v l r h)).2 ∧
      (∀ p : ℤ → Prop, allP p (.node v l r h) →
        p (extract_min (.node v l r h)).1 ∧
        allP p (extract_min (.node v l r h)).2)
  | v, .nil, r, h, ht => by
    obtain ⟨-, hr, -, br⟩ := ht
    simp only [extract_min]
    refine ⟨Or.inl rfl, br, ?_, hr, fun p hp => ⟨hp.1, hp.2.2⟩⟩
    intro y
    simp only [memP_node, memP_nil]
    constructor
    · intro hy
      exact ⟨Or.inr (Or.inr hy), (allP_of_memP hr hy).ne'⟩
    · rintro ⟨rfl | hy | hy, hne⟩
      · exact absurd rfl hne
      · exact hy.elim
      · exact hy
  | v, .node lv ll lr lh, r, h, ht => by
    obtain ⟨hl, hr, bl, br⟩ := ht
    rcases hie : extract_min (.node lv ll lr lh) with ⟨m, l2⟩
    have ih := extract_min_mem_spec lv ll lr lh bl
    rw [hie] at ih
    obtain ⟨ihmem, ihbst, ihiff, ihlt, ihp⟩ := ih
    have hmv := allP_of_memP hl ihmem
    have hmr : ∀ y, memP y r → m < y := fun y hy =>
      lt_trans hmv (allP_of_memP hr hy)
    simp only [extract_min, hie]
    refine ⟨Or.inr (Or.inl ihmem), ?_, ?_, ?_, ?_⟩
    · exact bst_rebalance ⟨(ihp _ hl).2, hr, ihbst, br⟩
    · intro y
      rw [memP_rebalance]
      simp only [memP_node, ihiff y]
      constructor
      · rintro (rfl | ⟨hyl, hym⟩ | hyr)
        · exact ⟨Or.inl rfl, hmv.ne'⟩
        · exact ⟨Or.inr (Or.inl hyl), hym⟩
        · exact ⟨Or.inr (Or.inr hyr), (hmr y hyr).ne'⟩
      · rintro ⟨rfl | hyl | hyr, hne⟩
        · exact Or.inl rfl
        · exact Or.inr (Or.inl ⟨hyl, hne⟩)
        · exact Or.inr (Or.inr hyr)
    · rw [allP_rebalance]
      exact ⟨hmv, ihlt, allP_imp (fun y hy => lt_trans hmv hy) hr⟩
    · intro p hp
      refine ⟨(ihp p hp.2.1).1, ?_⟩
      rw [allP_rebalance]
      exact ⟨hp.1, (ihp p hp.2.1).2, hp.2.2⟩

/-- Lemma: `remove_node` and stored values: ordering is preserved, the value set
loses exactly `x`, the flag reports prior presence, bounds are preserved,
and a failed remove changes nothing. -/
theorem remove_mem_spec (x : ℤ) :
    ∀ t : Tree, bst t →
      bst (remove_node t x).1 ∧
      (∀ y, memP y (remove_node t x).1 ↔ memP y t ∧ y ≠ x) ∧
      ((remove_node t x).2 = true ↔ memP x t) ∧
      (∀ p : ℤ → Prop, allP p t → allP p (remove_node t x).1) ∧
      ((remove_node t x).2 = false → (remove_node t x).1 = t)
  | .nil, _ => by
    simp [remove_node]
  | .node v l r h, ht => by
    obtain ⟨hl, hr, bl, br⟩ := ht
    by_cases hx1 : x < v
    · rcases hi : remove_node l x with ⟨l2, rem⟩
      have ih := remove_mem_spec x l bl
      rw [hi] at ih
      obtain ⟨ihb, ihm, ihf, iha, ihu⟩ := ih
      have hmxr : ¬ memP x r := fun hc =>
        absurd (allP_of_memP hr hc) (by omega)
      simp only [remove_node, if_pos hx1, hi]
      cases rem with
      | false =>
        have hxl : ¬ memP x l := fun hc =>
          absurd (ihf.mpr hc) (by simp)
        have hl2 : l2 = l := ihu rfl
        subst hl2
        simp only [if_neg Bool.false_ne_true]
        refine ⟨⟨hl, hr, bl, br⟩, ?_, ?_, fun p hp => hp, by simp⟩
        · intro y
          simp only [memP_node]
          constructor
          · intro hy
            refine ⟨hy, ?_⟩
            rintro rfl
            rcases hy with rfl | hy | hy
            · exact absurd hx1 (lt_irrefl _)
            · exact hxl hy
            · exact hmxr hy
          · exact fun hy => hy.1
        · simp only [memP_node]
          constructor
          · intro hc
            exact absurd hc (by simp)
          · rintro (rfl | hc | hc)
            · exact absurd hx1 (lt_irrefl _)
            · exact absurd hc hxl
            · exact absurd hc hmxr
      | true =>
        simp only [eq_self_iff_true, if_true]
        refine ⟨?_, ?_, ?_, ?_, by simp⟩
        · exact bst_rebalance ⟨iha _ hl, hr, ihb, br⟩
        · intro y
          rw [memP_rebalance]
          simp only [memP_node, ihm y]
          constructor
          · rintro (rfl | ⟨hy, hne⟩ | hy)
            · exact ⟨Or.inl rfl, by omega⟩
            · exact ⟨Or.inr (Or.inl hy), hne⟩
            · refine ⟨Or.inr (Or.inr hy), ?_⟩
              rintro rfl
              exact hmxr hy
          · rintro ⟨rfl | hy | hy, hne⟩
            · exact Or.inl rfl
            · exact Or.inr (Or.inl ⟨hy, hne⟩)
            · exact Or.inr (Or.inr hy)
        · rw [true_iff]
          exact Or.inr (Or.inl (ihf.mp rfl))
        · intro p hp
          rw [allP_rebalance]
          exact ⟨hp.1, iha p hp.2.1, hp.2.2⟩
    · by_cases hx2 : v < x
      · rcases hi : remove_node r x with ⟨r2, rem⟩
        have ih := remove_mem_spec x r br
        rw [hi] at ih
        obtain ⟨ihb, ihm, ihf, iha, ihu⟩ := ih
        have hmxl : ¬ memP x l := fun hc =>
          absurd (allP_of_memP hl hc) (by omega)
        simp only [remove_node, if_neg hx1, if_pos hx2, hi]
        cases rem with
        | false =>
          have hxr : ¬ memP x r := fun hc =>
            absurd (ihf.mpr hc) (by simp)
          have hr2 : r2 = r := ihu rfl
          subst hr2
          simp only [if_neg Bool.false_ne_true]
          refine ⟨⟨hl, hr, bl, br⟩, ?_, ?_, fun p hp => hp, by simp⟩
          · intro y
            simp only [memP_node]
            constructor
            · intro hy
              refine ⟨hy, ?_⟩
              rintro rfl
              rcases hy with rfl | hy | hy
              · exact absurd hx2 (lt_irrefl _)
              · exact hmxl hy
              · exact hxr hy
            · exact fun hy => hy.1
          · simp only [memP_node]
            constructor
            · intro hc
              exact absurd hc (by simp)
            · rintro (rfl | hc | hc)
              · exact absurd hx2 (lt_irrefl _)
              · exact absurd hc hmxl
              · exact absurd hc hxr
        | true =>
          simp only [eq_self_iff_true, if_true]
          refine ⟨?_, ?_, ?_, ?_, by simp⟩
          · exact bst_rebalance ⟨hl, iha _ hr, bl, ihb⟩
          · intro y
            rw [memP_rebalance]
            simp only [memP_node, ihm y]
            constructor
            · rintro (rfl | hy | ⟨hy, hne⟩)
              · exact ⟨Or.inl rfl, by omega⟩
              · refine ⟨Or.inr (Or.inl hy), ?_⟩
                rintro rfl
                exact hmxl hy
              · exact ⟨Or.inr (Or.inr hy), hne⟩
            · rintro ⟨rfl | hy | hy, hne⟩
              · exact Or.inl rfl
              · exact Or.inr (Or.inl hy)
              · exact Or.inr (Or.inr ⟨hy, hne⟩)
          · rw [true_iff]
            exact Or.inr (Or.inr (ihf.mp rfl))
          · intro p hp
            rw [allP_rebalance]
            exact ⟨hp.1, hp.2.1, iha p hp.2.2⟩
      · have hxv : x = v := by omega
        subst hxv
        cases l with
        | nil =>
          cases r with
          | nil =>
            simp only [remove_node, if_neg hx1, if_neg hx2]
            refine ⟨trivial, ?_, by simp, fun p _ => trivial, by simp⟩
            intro y
            simp only [memP_nil, memP_node]
            constructor
            · exact fun hy => hy.elim
            · rintro ⟨rfl | hy | hy, hne⟩
              · exact absurd rfl hne
              · exact hy
              · exact hy
          | node rv rl rr rh =>
            simp only [remove_node, if_neg hx1, if_neg hx2]
            refine ⟨br, ?_, by simp, fun p hp => hp.2.2, by simp⟩
            intro y
            simp only [memP_node, memP_nil]
            constructor
            · intro hy
              exact ⟨Or.inr (Or.inr hy), (allP_of_memP hr hy).ne'⟩
            · rintro ⟨rfl | hy | hy, hne⟩
              · exact absurd rfl hne
              · exact hy.elim
              · exact hy
        | node lv ll lr lh =>
          cases r with
          | nil =>
            simp only [remove_node, if_neg hx1, if_neg hx2]
            refine ⟨bl, ?_, by simp, fun p hp => hp.2.1, by simp⟩
            intro y
            simp only [memP_node, memP_nil]
            constructor
            · intro hy
              exact ⟨Or.inr (Or.inl hy), (allP_of_memP hl hy).ne⟩
            · rintro ⟨rfl | hy | hy, hne⟩
              · exact absurd rfl hne
              · exact hy
              · exact hy.elim
          | node rv rl rr rh =>
            rcases hie : extract_min (.node rv rl rr rh) with ⟨m, r2⟩
            have ihe := extract_min_mem_spec rv rl rr rh br
            rw [hie] at ihe
            obtain ⟨ihmem, ihbst, ihiff, ihlt, ihp⟩ := ihe
            have ihmem2 : memP m (.node rv rl rr rh) := ihmem
            have ihbst2 : bst r2 := ihbst
            have ihiff2 : ∀ y, memP y r2 ↔
                memP y (.node rv rl rr rh) ∧ y ≠ m := fun y => ihiff y
            have ihlt2 : allP (fun y => m < y) r2 := ihlt
            have ihp2 : ∀ p : ℤ → Prop, allP p (.node rv rl rr rh) →
                p m ∧ allP p r2 := fun p hp => ihp p hp
            have hvm := allP_of_memP hr ihmem2
            simp only [remove_node, if_neg hx1, if_neg hx2, hie,
              update_height]
            refine ⟨?_, ?_, by simp, ?_, by simp⟩
            · refine bst_rebalance ⟨?_, ihlt2, bl, ihbst2⟩
              exact allP_imp (fun y hy => lt_trans hy hvm) hl
            · intro y
              rw [memP_rebalance]
              simp only [memP_node, ihiff2 y]
              constructor
              · rintro (rfl | hy | ⟨hy, hne⟩)
                · exact ⟨Or.inr (Or.inr ihmem2), hvm.ne'⟩
                · exact ⟨Or.inr (Or.inl hy), (allP_of_memP hl hy).ne⟩
                · exact ⟨Or.inr (Or.inr hy), (allP_of_memP hr hy).ne'⟩
              · rintro ⟨rfl | hy | hy, hne⟩
                · exact absurd rfl hne
                · exact Or.inr (Or.inl hy)
                · by_cases hym : y = m
                  · exact Or.inl hym
                  · exact Or.inr (Or.inr ⟨hy, hym⟩)
            · intro p hp
              rw [allP_rebalance]
              exact ⟨(ihp2 p hp.2.2).1, hp.2.1, (ihp2 p hp.2.2).2⟩

/-- Under the ordering invariant, the ordered descent `contains` decides
structural membership. -/
theorem containsT_iff_memP (x : ℤ) :
    ∀ t : Tree, bst t → (containsT t x = true ↔ memP x t)
  | .nil, _ => by simp [containsT]
  | .node v l r h, ht => by
    obtain ⟨hl, hr, bl, br⟩ := ht
    simp only [containsT]
    by_cases hx1 : x < v
    · rw [if_pos hx1, containsT_iff_memP x l bl]
      simp only [memP_node]
      constructor
      · exact fun hy => Or.inr (Or.inl hy)
      · rintro (rfl | hy | hy)
        · exact absurd hx1 (lt_irrefl _)
        · exact hy
        · exact absurd (allP_of_memP hr hy) (by omega)
    · by_cases hx2 : v < x
      · rw [if_neg hx1, if_pos hx2, containsT_iff_memP x r br]
        simp only [memP_node]
        constructor
        · exact fun hy => Or.inr (Or.inr hy)
        · rintro (rfl | hy | hy)
          · exact absurd hx2 (lt_irrefl _)
          · exact absurd (allP_of_memP hl hy) (by omega)
          · exact hy
      · have hxv : x = v := by omega
        subst hxv
        rw [if_neg hx1, if_neg hx2]
        simp

/-- The tree refines the reference set semantics: starting from any state
whose stored values are exactly `s`, after any operation sequence the stored
values are exactly the reference set, and ordering is maintained. -/
theorem applyOps_mem :
    ∀ (ops : List Op) (t : AvlTree) (s : Finset ℤ), bst t.root →
      (∀ y, memP y t.root ↔ y ∈ s) →
      bst (applyOps t ops).root ∧
      (∀ y, memP y (applyOps t ops).root ↔ y ∈ ops.foldl specStep s)
  | [], t, s, hb, hm => ⟨hb, hm⟩
  | op :: ops, t, s, hb, hm => by
    have step : bst (applyOp t op).root ∧
        (∀ y, memP y (applyOp t op).root ↔ y ∈ specStep s op) := by
      cases op with
      | ins v =>
        rcases hi : insert_node t.root v with ⟨nr, ins⟩
        have hs := insert_mem_spec v t.root hb
        rw [hi] at hs
        simp only [applyOp, AvlTree.insert, hi]
        refine ⟨hs.1, ?_⟩
        intro y
        rw [show memP y (nr, ins).1 ↔ y = v ∨ memP y t.root from hs.2.1 y,
          hm y]
        by_cases hv : v ∈ s
        · simp only [specStep, if_pos hv]
          constructor
          · rintro (rfl | hy)
            · exact hv
            · exact hy
          · exact fun hy => Or.inr hy
        · simp only [specStep, if_neg hv, Finset.mem_insert]
      | rem v =>
        rcases hi : remove_node t.root v with ⟨nr, rem⟩
        have hs := remove_mem_spec v t.root hb
        rw [hi] at hs
        simp only [applyOp, AvlTree.remove, hi]
        refine ⟨hs.1, ?_⟩
        intro y
        rw [show memP y (nr, rem).1 ↔ memP y t.root ∧ y ≠ v from hs.2.1 y,
          hm y]
        simp only [specStep, Finset.mem_erase]
        tauto
    have ih := applyOps_mem ops (applyOp t op) (specStep s op) step.1 step.2
    exact ih

/-- Pure counting fact about the reference semantics: final membership of
`x` is equivalent to the effective removes falling short of the effective
inserts plus one when `x` started inside. -/
theorem effCounts_mem (x : ℤ) :
    ∀ (ops : List Op) (s : Finset ℤ),
      (x ∈ ops.foldl specStep s) ↔
        (effCounts x s ops).2 <
          (effCounts x s ops).1 + (if x ∈ s then 1 else 0)
  | [], s => by
    by_cases hx : x ∈ s <;> simp [effCounts, hx]
  | op :: ops, s => by
    cases op with
    | ins v =>
      have ih := effCounts_mem x ops (specStep s (.ins v))
      simp only [List.foldl_cons, effCounts]
      by_cases hvx : v = x
      · subst hvx
        by_cases hvs : v ∈ s
        · rw [if_neg (by tauto)]
          rw [ih]
          simp [specStep, hvs]
        · rw [if_pos ⟨rfl, hvs⟩]
          rw [ih]
          simp only [specStep, if_neg hvs, Finset.mem_insert, true_or,
            if_true, if_pos (Or.inl rfl), if_neg hvs]
      · rw [if_neg (by tauto)]
        rw [ih]
        by_cases hvs : v ∈ s
        · simp [specStep, hvs]
        · simp only [specStep, if_neg hvs, Finset.mem_insert]
          have : (x = v ∨ x ∈ s) ↔ x ∈ s := by
            constructor
            · rintro (rfl | hy)
              · exact absurd rfl (Ne.symm hvx)
              · exact hy
            · exact fun hy => Or.inr hy
          rw [if_congr this rfl rfl]
    | rem v =>
      have ih := effCounts_mem x ops (specStep s (.rem v))
      simp only [List.foldl_cons, effCounts]
      by_cases hvx : v = x
      · subst hvx
        by_cases hvs : v ∈ s
        · rw [if_pos ⟨rfl, hvs⟩]
          rw [ih]
          simp only [specStep, Finset.mem_erase, ne_eq,
            not_true_eq_false, false_and, if_false, if_pos hvs]
          omega
        · rw [if_neg (by tauto)]
          rw [ih]
          simp only [specStep, Finset.mem_erase, ne_eq,
            not_true_eq_false, false_and, if_false, if_neg hvs]
      · rw [if_neg (by tauto)]
        rw [ih]
        have : (x ∈ s.erase v) ↔ x ∈ s := by
          rw [Finset.mem_erase]
          constructor
          · exact fun hy => hy.2
          · exact fun hy => ⟨Ne.symm hvx, hy⟩
        simp only [specStep]
        rw [if_congr this rfl rfl]

/-- C5, counterexample: insert 0 twice and remove it once.  The value 0 was
inserted more times (2) than it was removed (1) — and the single remove hit
a present value, so this also holds counting successful operations only —
yet `contains(0)` is false: the duplicate insert was a no-op, so the one
remove emptied the tree. -/
theorem c5_counterexample :
    (applyOps AvlTree.new [.ins 0, .ins 0, .rem 0]).contains 0 = false ∧
    removeCount 0 [.ins 0, .ins 0, .rem 0] <
      insertCount 0 [.ins 0, .ins 0, .rem 0] := by
  exact ⟨by decide, by decide⟩

/-- C5, amended: for every operation sequence applied from `AvlTree::new()`
and every value, `contains` returns true iff the value was inserted more
times than removed counting only the effective operations — an insert of a
value already present and a remove of an absent value (which removes
nothing and returns false) are no-ops and not counted. -/
theorem c5_contains_iff_effective_counts (ops : List Op) (x : ℤ) :
    (applyOps AvlTree.new ops).contains x = true ↔
      (effCounts x ∅ ops).2 < (effCounts x ∅ ops).1 := by
  have hmm := applyOps_mem ops AvlTree.new ∅ trivial (by
    intro y
    simp [AvlTree.new, memP])
  have h1 : (applyOps AvlTree.new ops).contains x =
      containsT (applyOps AvlTree.new ops).root x := rfl
  rw [h1, containsT_iff_memP x _ hmm.1, hmm.2 x, effCounts_mem x ops ∅]
  simp

/-- Witness for C5 (amended) on a concrete sequence and value. -/
theorem c5_witness :
    (applyOps AvlTree.new [.ins 5, .ins 5, .rem 5]).contains 5 = true ↔
      (effCounts 5 ∅ [.ins 5, .ins 5, .rem 5]).2 <
        (effCounts 5 ∅ [.ins 5, .ins 5, .rem 5]).1 :=
  c5_contains_iff_effective_counts [.ins 5, .ins 5, .rem 5] 5

end RustAvl
